import Mathlib

/-!
Verification development for the pharmacy-roster extraction program
(`parse_pharmacy_roster.py`).

The program's text layer is modelled over `List Char` (one Lean `Char` per
Python character, ASCII semantics for the character classes the regexes use)
and PDF coordinates over `ℤ` (the source only compares coordinates and
shifts them by small integer constants, so any linearly ordered ring models
the comparison semantics; `ℤ` is used so that concrete pages evaluate inside
the kernel).

Each Python regex used by the program is deterministic once leftmost-match
backtracking is resolved, so every regex is embedded as an executable scanning
function together with soundness/completeness lemmas relating it to the
declarative pattern it implements.  Inputs are assumed newline-free (the
record assembler whitespace-normalises every address with
`" ".flatten(address.split())` before `parse_address` sees it), so `.` in the
box pattern is modelled as "any character" and `$` as end of string.
-/

/-- ASCII decimal digit, the characters matched by `\d` on this corpus. -/
def isDigitChar (c : Char) : Bool :=
  '0' ≤ c && c ≤ '9'

/-- Whitespace characters matched by Python's `\s` / `str.split()` /
`str.strip()` on ASCII text. -/
def isWsChar (c : Char) : Bool :=
  c = ' ' || c = '\t' || c = '\n' || c = '\x0d' || c = '\x0b' || c = '\x0c'

/-- ASCII uppercase letter, the `[A-Z]` class. -/
def isUpperChar (c : Char) : Bool :=
  'A' ≤ c && c ≤ 'Z'

/-- ASCII lowercase letter, the `[a-z]` class. -/
def isLowerChar (c : Char) : Bool :=
  'a' ≤ c && c ≤ 'z'

/-- ASCII letter, the `[A-Za-z]` class. -/
def isAlphaChar (c : Char) : Bool :=
  isUpperChar c || isLowerChar c

/-- Python `str.strip()`: drop whitespace from both ends. -/
def trimWs (cs : List Char) : List Char :=
  (((cs.dropWhile isWsChar).reverse).dropWhile isWsChar).reverse

/-- Helper for `splitWs`: `acc` is the current in-progress word, reversed. -/
def splitWsAux (acc : List Char) : List Char → List (List Char)
  | [] => if acc = [] then [] else [acc.reverse]
  | c :: rest =>
    if isWsChar c then
      if acc = [] then splitWsAux [] rest else acc.reverse :: splitWsAux [] rest
    else
      splitWsAux (c :: acc) rest

/-- Python `str.split()` with no argument: split on whitespace runs,
discarding empty fields. -/
def splitWs (cs : List Char) : List (List Char) :=
  splitWsAux [] cs

/-- Python `" ".flatten(xs)`: join a list of strings with single spaces. -/
def joinSpace : List (List Char) → List Char
  | [] => []
  | [w] => w
  | w :: rest => w ++ ' ' :: joinSpace rest

/-- Case-insensitive literal matcher: consume `lit.length` characters of `cs`
whose lowercase form equals `lit` (given pre-lowered), returning the consumed
characters verbatim and the remainder. -/
def ciConsume : List Char → List Char → Option (List Char × List Char)
  | [], cs => some ([], cs)
  | _ :: _, [] => none
  | l :: ls, c :: cs =>
    if c.toLower = l then (ciConsume ls cs).map (fun p => (c :: p.1, p.2))
    else none

/-- Strip trailing `,` and `.` characters: Python `str.rstrip(",.")`. -/
def rstripPunct (cs : List Char) : List Char :=
  (cs.reverse.dropWhile (fun c => c = ',' || c = '.')).reverse

/-- Lowercase a word character-wise: Python `str.lower()` on ASCII. -/
def lowerWord (cs : List Char) : List Char :=
  cs.map Char.toLower

/-!
### The state/zip anchor of `parse_address`

`re.compile(r"\s+([A-Z]{2})\s+(\d{5}(?:-\d{4})?)$").search(address)`.

The pattern is anchored at the end of the string, so a match, if any, is
forced: the zip is the trailing `ddddd` or `ddddd-dddd`, the state is the two
uppercase letters before the preceding whitespace run, and at least one
whitespace character must precede the state.  `match.start()` is the start of
the maximal whitespace run before the state.  The scan is realised on the
reversed string.  Returns `(prefix before the whitespace run, state, zip)`.
-/

/-- Second phase of the state/zip anchor scan, after the (reversed) zip has
been consumed: require `\s+`, two `[A-Z]`, `\s+` walking further left. -/
def stateZipAfterZip (zipRev rem : List Char) : Option (List Char × List Char × List Char) :=
  let ws2 := rem.takeWhile isWsChar
  let rem2 := rem.dropWhile isWsChar
  if ws2 = [] then none
  else
    match rem2 with
    | b :: a :: rem3 =>
      if isUpperChar b && isUpperChar a then
        let ws1 := rem3.takeWhile isWsChar
        let rem4 := rem3.dropWhile isWsChar
        if ws1 = [] then none
        else some (rem4.reverse, [a, b], zipRev.reverse)
      else none
    | _ => none

/-- The end-anchored search for `\s+([A-Z]{2})\s+(\d{5}(?:-\d{4})?)$`. -/
def stateZipSearch (address : List Char) : Option (List Char × List Char × List Char) :=
  let r := address.reverse
  let ds := r.takeWhile isDigitChar
  let r1 := r.dropWhile isDigitChar
  if ds.length = 4 then
    match r1 with
    | c0 :: r2 =>
      if c0 = '-' then
        let ds2 := r2.takeWhile isDigitChar
        let r3 := r2.dropWhile isDigitChar
        if ds2.length = 5 then stateZipAfterZip (ds ++ '-' :: ds2) r3 else none
      else none
    | [] => none
  else if ds.length = 5 then stateZipAfterZip ds r1
  else none

/-!
### The mail-routing (ATTN / MC) marker of `parse_address`

`re.search(r"\s+(ATTN|Attn:?|MC\s*\d)", street_city, re.IGNORECASE)`.

Under `IGNORECASE` the first two alternatives coincide on their extent's
start: the alternation matches at a position iff the text there starts with
case-insensitive `attn`, or with case-insensitive `mc` followed by optional
whitespace and a digit.  All alternatives start with a letter, so the `\s+`
preceding the alternation always extends to the end of the whitespace run;
the leftmost match therefore starts at the first whitespace character from
which the rest of its run is followed by the alternation.
-/

/-- The alternation `(ATTN|Attn:?|MC\s*\d)` under `IGNORECASE`, tested at the
start of `m` (only the start position matters to the caller). -/
def altMatchB (m : List Char) : Bool :=
  (ciConsume ("attn").data m).isSome ||
    (match ciConsume ("mc").data m with
     | some (_, r) =>
       match r.dropWhile isWsChar with
       | d :: _ => isDigitChar d
       | [] => false
     | none => false)

/-- Leftmost search for `\s+(ATTN|Attn:?|MC\s*\d)`: returns the split
`(before match.start(), from match.start())`. -/
def attnFind : List Char → Option (List Char × List Char)
  | [] => none
  | c :: rest =>
    if isWsChar c && altMatchB ((c :: rest).dropWhile isWsChar) then
      some ([], c :: rest)
    else
      (attnFind rest).map (fun p => (c :: p.1, p.2))

/-!
### The PO-box pattern of `parse_address`

`re.compile(r"^(.*?)\s*((?:PO\s+)?Box\s+\d+)\s+(.+)$", re.IGNORECASE).match`.

With a lazy leading group, the engine tries every prefix length as group 1,
shortest first; the rest of the pattern is deterministic because each
variable-width piece is followed by a piece that starts with a character of a
disjoint class.  One genuine backtracking corner survives in `\s+(.+)$`: when
everything after the digits is whitespace, `\s+` gives one character back to
`.+`, so group 3 becomes the last whitespace character.
-/

/-- Match `Box\s+\d+` then `\s+(.+)$` at `cs1`; `acc` is the already consumed
verbatim text of group 2 (the optional `PO\s+` part).  Returns (group 2,
group 3). -/
def boxCore (cs1 : List Char) (acc : List Char) : Option (List Char × List Char) :=
  match ciConsume ("box").data cs1 with
  | none => none
  | some (bx, r1) =>
    let wsB := r1.takeWhile isWsChar
    let r2 := r1.dropWhile isWsChar
    if wsB = [] then none
    else
      let ds := r2.takeWhile isDigitChar
      let r3 := r2.dropWhile isDigitChar
      if ds = [] then none
      else
        let wsT := r3.takeWhile isWsChar
        let rB := r3.dropWhile isWsChar
        if wsT = [] then none
        else if rB ≠ [] then some (acc ++ bx ++ wsB ++ ds, rB)
        else
          match wsT.getLast? with
          | some lc => if 2 ≤ wsT.length then some (acc ++ bx ++ wsB ++ ds, [lc]) else none
          | none => none

/-- Match `\s*((?:PO\s+)?Box\s+\d+)\s+(.+)$` at `cs`; on failure of the
`PO`-prefixed branch the engine retries without the optional group. -/
def boxTail (cs : List Char) : Option (List Char × List Char) :=
  let cs1 := cs.dropWhile isWsChar
  match ciConsume ("po").data cs1 with
  | some (po2, rp) =>
    let wsP := rp.takeWhile isWsChar
    let rp2 := rp.dropWhile isWsChar
    if wsP = [] then boxCore cs1 []
    else
      match boxCore rp2 (po2 ++ wsP) with
      | some res => some res
      | none => boxCore cs1 []
  | none => boxCore cs1 []

/-- Leftmost-minimal match of the full box pattern: group 1 grows from the
empty prefix until the tail matches.  Returns (group 1, group 2, group 3). -/
def boxFind : List Char → Option (List Char × List Char × List Char)
  | [] => (boxTail []).map (fun p => ([], p.1, p.2))
  | c :: rest =>
    match boxTail (c :: rest) with
    | some (g2, g3) => some ([], g2, g3)
    | none => (boxFind rest).map (fun t => (c :: t.1, t.2.1, t.2.2))

/-!
### The street-suffix scan of `parse_address`
-/

/-- Model of `STREET_SUFFIXES` from the source, verbatim. -/
def STREET_SUFFIXES : List (List Char) :=
  [("st").data, ("st.").data, ("street").data, ("ave").data, ("ave.").data,
   ("avenue").data, ("rd").data, ("rd.").data, ("road").data,
   ("dr").data, ("dr.").data, ("drive").data, ("ln").data, ("ln.").data,
   ("lane").data, ("ct").data, ("ct.").data, ("court").data,
   ("blvd").data, ("blvd.").data, ("boulevard").data, ("way").data,
   ("pl").data, ("pl.").data, ("place").data, ("cir").data,
   ("cir.").data, ("circle").data, ("hwy").data, ("hwy.").data,
   ("highway").data, ("pkwy").data, ("pkwy.").data, ("parkway").data,
   ("ter").data, ("ter.").data, ("terrace").data, ("trl").data,
   ("trl.").data, ("trail").data, ("ste").data, ("suite").data,
   ("unit").data, ("apt").data, ("apt.").data, ("floor").data,
   ("fl").data, ("fl.").data, ("room").data, ("rm").data, ("rm.").data,
   ("#").data]

/-- The tuple of unit/suite/highway keywords from the second `if` of the
suffix-scan loop, verbatim. -/
def UNIT_KEYWORDS : List (List Char) :=
  [("ste").data, ("suite").data, ("unit").data, ("apt").data, ("room").data,
   ("rm").data, ("floor").data, ("fl").data, ("hwy").data, ("highway").data,
   ("route").data, ("rt").data]

/-- Model of `re.match(r"^(#?\d+[A-Za-z]?|[A-Za-z])$", w)`: an optional `#`, digits and
an optional trailing letter, or a single bare letter. -/
def isUnitDesig (w : List Char) : Bool :=
  let core : List Char → Bool := fun cs =>
    let ds := cs.takeWhile isDigitChar
    let r := cs.dropWhile isDigitChar
    ds ≠ [] &&
      (match r with
       | [] => true
       | [c] => isAlphaChar c
       | _ => false)
  match w with
  | [] => false
  | '#' :: rest => core rest
  | _ =>
    core w ||
      (match w with
       | [c] => isAlphaChar c
       | _ => false)

/-- The normalised form `word.lower().rstrip(",.")` used by both membership
tests of the suffix-scan loop. -/
def normWord (w : List Char) : List Char :=
  rstripPunct (lowerWord w)

/-- One iteration of the suffix-scan loop at index `i` with current word `w`
and lookahead `nxt = words[i+1]` (when it exists). -/
def suffixStep (i : Nat) (w : List Char) (nxt : Option (List Char)) (acc : Option Nat) : Option Nat :=
  let wl := normWord w
  let acc1 := if wl ∈ STREET_SUFFIXES then some i else acc
  if wl ∈ UNIT_KEYWORDS &&
      (match nxt with
       | some n => isUnitDesig n
       | none => false) then
    some (i + 1)
  else acc1

/-- The suffix-scan loop body, walking the word list with its index. -/
def suffixGo (acc : Option Nat) (i : Nat) : List (List Char) → Option Nat
  | [] => acc
  | w :: rest => suffixGo (suffixStep i w rest.head? acc) (i + 1) rest

/-- Model of `street_end_idx` after the scan loop; `none` models the `-1` sentinel. -/
def streetEndIdx (words : List (List Char)) : Option Nat :=
  suffixGo none 0 words

/-!
### `parse_address`
-/

/-- The result record of `parse_address`:
`{"street": ..., "city": ..., "state": ..., "zip": ...}`. -/
structure ParsedAddr where
  street : List Char
  city : List Char
  state : List Char
  zip : List Char
deriving DecidableEq, Repr

/-- Model of `re.match(r"^[A-Z][a-z]+$", w)`: a simple capitalized word. -/
def isCapWord (w : List Char) : Bool :=
  match w with
  | c :: rest => isUpperChar c && rest ≠ [] && rest.all isLowerChar
  | [] => false

/-- City selection of the mail-routing branch: the last word matching the
capitalized-word shape, else the last word (`words[-1]`); `none` models the
`IndexError` Python would raise on an empty word list. -/
def lastCapOrLast (words : List (List Char)) : Option (List Char) :=
  match words.reverse.find? isCapWord with
  | some w => some w
  | none => words.getLast?

/-- The street/city split of the default suffix-scan branch, including its
"last word is the city" fallback. -/
def suffixSplit (sc : List Char) (st zp : List Char) : ParsedAddr :=
  let words := splitWs sc
  let fallback : ParsedAddr :=
    if 1 < words.length then
      ⟨joinSpace words.dropLast, (words.getLast?).getD [], st, zp⟩
    else
      ⟨[], sc, st, zp⟩
  match streetEndIdx words with
  | some b =>
    if b + 1 < words.length then
      ⟨joinSpace (words.take (b + 1)), joinSpace (words.drop (b + 1)), st, zp⟩
    else fallback
  | none => fallback

/-- Model of `parse_address` from the source.  `none` models the only uncaught
exception the function could raise (the `words[-1]` access of the
mail-routing branch on an empty word list); it is proved unreachable. -/
def parse_address (address : List Char) : Option ParsedAddr :=
  if address = [] then some ⟨[], [], [], []⟩
  else
    match stateZipSearch address with
    | none => some ⟨address, [], [], []⟩
    | some (pre, st, zp) =>
      let sc := trimWs pre
      match attnFind sc with
      | some (u, _) =>
        let street := trimWs u
        match lastCapOrLast (splitWs sc) with
        | some city => some ⟨street, city, st, zp⟩
        | none => none
      | none =>
        match boxFind sc with
        | some (g1, g2, g3) =>
          let streetPart := trimWs g1
          let cityPart := trimWs g3
          let street := if streetPart = [] then g2 else streetPart ++ ' ' :: g2
          some ⟨street, cityPart, st, zp⟩
        | none => some (suffixSplit sc st zp)

/-!
### `format_date`

`datetime.strptime(date_str, "%m/%d/%Y")` then `strftime("%Y-%m-%d")`.
CPython's `_strptime` compiles `%m` to `1[0-2]|0[1-9]|[1-9]`, `%d` to
`3[01]|[12]\d|0[1-9]|[1-9]` and `%Y` to `\d\d\d\d`, requires the whole string
to be consumed, and `datetime` construction then validates the day against
the month's length (with leap years) and rejects year 0.  Because each
two-digit alternative, when it fires, consumes a digit where the fallback
would need the literal `/`, the alternations are deterministic.  `%Y` is
rendered as the plain decimal number (glibc `strftime` does not zero-pad it);
`%m` and `%d` are zero-padded to two digits.
-/

/-- Numeric value of an ASCII digit character. -/
def digitVal (c : Char) : Nat :=
  c.toNat - 48

/-- Parse the `%m` field: `1[0-2]|0[1-9]|[1-9]`. -/
def parseMonth : List Char → Option (Nat × List Char)
  | [] => none
  | c :: rest =>
    if c = '1' then
      match rest with
      | c2 :: r2 => if '0' ≤ c2 && c2 ≤ '2' then some (10 + digitVal c2, r2) else some (1, rest)
      | [] => some (1, [])
    else if c = '0' then
      match rest with
      | c2 :: r2 => if '1' ≤ c2 && c2 ≤ '9' then some (digitVal c2, r2) else none
      | [] => none
    else if '2' ≤ c && c ≤ '9' then some (digitVal c, rest)
    else none

/-- Parse the `%d` field: `3[01]|[12]\d|0[1-9]|[1-9]`. -/
def parseDay : List Char → Option (Nat × List Char)
  | [] => none
  | c :: rest =>
    if c = '3' then
      match rest with
      | c2 :: r2 => if '0' ≤ c2 && c2 ≤ '1' then some (30 + digitVal c2, r2) else some (3, rest)
      | [] => some (3, [])
    else if c = '1' || c = '2' then
      match rest with
      | c2 :: r2 => if isDigitChar c2 then some (10 * digitVal c + digitVal c2, r2) else some (digitVal c, rest)
      | [] => some (digitVal c, [])
    else if c = '0' then
      match rest with
      | c2 :: r2 => if '1' ≤ c2 && c2 ≤ '9' then some (digitVal c2, r2) else none
      | [] => none
    else if '4' ≤ c && c ≤ '9' then some (digitVal c, rest)
    else none

/-- Parse the `%Y` field: exactly four digits. -/
def parseYear4 : List Char → Option (Nat × List Char)
  | y1 :: y2 :: y3 :: y4 :: rest =>
    if isDigitChar y1 && isDigitChar y2 && isDigitChar y3 && isDigitChar y4 then
      some (1000 * digitVal y1 + 100 * digitVal y2 + 10 * digitVal y3 + digitVal y4, rest)
    else none
  | _ => none

/-- Gregorian leap year, as `calendar`/`datetime` compute it. -/
def isLeapYear (y : Nat) : Bool :=
  y % 4 = 0 && (y % 100 ≠ 0 || y % 400 = 0)

/-- Length of a month, used by `datetime`'s day validation. -/
def daysInMonth (m y : Nat) : Nat :=
  if m = 2 then (if isLeapYear y then 29 else 28)
  else if m = 4 || m = 6 || m = 9 || m = 11 then 30
  else 31

/-- Model of `datetime.strptime(s, "%m/%d/%Y")`: full-string match of
month `/` day `/` four-digit year, then `datetime(y, m, d)` validation. -/
def parseMDY (cs : List Char) : Option (Nat × Nat × Nat) :=
  match parseMonth cs with
  | none => none
  | some (m, r1) =>
    match r1 with
    | '/' :: r2 =>
      match parseDay r2 with
      | none => none
      | some (d, r3) =>
        match r3 with
        | '/' :: r4 =>
          match parseYear4 r4 with
          | none => none
          | some (y, r5) =>
            if r5 = [] && 1 ≤ y && d ≤ daysInMonth m y then some (m, d, y) else none
        | _ => none
    | _ => none

/-- Two-digit zero-padded rendering (`%m`, `%d`). -/
def pad2 (n : Nat) : List Char :=
  if n < 10 then ['0', Char.ofNat (48 + n)] else (Nat.toDigits 10 n)

/-- Model of `strftime("%Y-%m-%d")` on the parsed date. -/
def renderISO (y m d : Nat) : List Char :=
  Nat.toDigits 10 y ++ '-' :: (pad2 m ++ '-' :: pad2 d)

/-- Model of `format_date` from the source. -/
def format_date (cs : List Char) : List Char :=
  if cs = [] then []
  else
    match parseMDY cs with
    | none => cs
    | some (m, d, y) => renderISO y m d

/-!
### The record assembler: `extract_pharmacy_records`, one page at a time

A `Word` is one positioned token as produced by `page.extract_words()`:
text plus horizontal (`x0`) and vertical (`top`) position.  The page loop of
`extract_pharmacy_records` is modelled by `extract_pharmacy_records_page`;
the outer loop only concatenates pages in order.
-/

/-- A positioned token. -/
structure Word where
  text : List Char
  x0 : ℤ
  top : ℤ
deriving DecidableEq, Repr

/-- The seven column names of the `COLUMNS` dict. -/
inductive ColName where
  | license_no | license_type | licensee_name | dba | address | ssn_fein | dates
deriving DecidableEq, Repr

/-- Model of `COLUMNS`, in the dict's insertion order (the order the continuation
classifier iterates). -/
def COLUMNS : List (ColName × ℤ × ℤ) :=
  [(.license_no, 0, 90), (.license_type, 90, 250), (.licensee_name, 250, 375),
   (.dba, 375, 495), (.address, 495, 640), (.ssn_fein, 640, 715),
   (.dates, 715, 800)]

/-- Range of a named column, as the source reads `COLUMNS[name]`. -/
def columnRange (n : ColName) : ℤ × ℤ :=
  match n with
  | .license_no => (0, 90)
  | .license_type => (90, 250)
  | .licensee_name => (250, 375)
  | .dba => (375, 495)
  | .address => (495, 640)
  | .ssn_fein => (640, 715)
  | .dates => (715, 800)

/-- Model of `get_column_value` from the source: texts of the words that fall in the
half-open column range, joined with single spaces, in input order. -/
def get_column_value (words : List Word) (colRange : ℤ × ℤ) : List Char :=
  joinSpace ((words.filter (fun w => colRange.1 ≤ w.x0 && w.x0 < colRange.2)).map (·.text))

/-- First matching column of the continuation-line classifier loop. -/
def colOf (x0 : ℤ) : Option ColName :=
  (COLUMNS.find? (fun e => e.2.1 ≤ x0 && x0 < e.2.2)).map (·.1)

/-- Python `str.isdigit()` on ASCII: non-empty and all decimal digits. -/
def isDigitStr (cs : List Char) : Bool :=
  cs ≠ [] && cs.all isDigitChar

/-- A row-start token: in the `license_no` column with purely numeric text. -/
def isRowStart (w : Word) : Bool :=
  0 ≤ w.x0 && w.x0 < 90 && isDigitStr w.text

/-- Match `\d{2}/\d{2}/\d{4}` at the start of the list, returning the ten
matched characters. -/
def matchDate10 (cs : List Char) : Option (List Char) :=
  match cs with
  | d1 :: d2 :: '/' :: d3 :: d4 :: '/' :: y1 :: y2 :: y3 :: y4 :: _ =>
    if isDigitChar d1 && isDigitChar d2 && isDigitChar d3 && isDigitChar d4 &&
        isDigitChar y1 && isDigitChar y2 && isDigitChar y3 && isDigitChar y4 then
      some [d1, d2, '/', d3, d4, '/', y1, y2, y3, y4]
    else none
  | _ => none

/-- Leftmost match of `date_pattern` (`\d{2}/\d{2}/\d{4}`): models both
`date_pattern.findall(...)[0]` and `date_pattern.search(...)`. -/
def findDate : List Char → Option (List Char)
  | [] => none
  | c :: rest =>
    match matchDate10 (c :: rest) with
    | some d => some d
    | none => findDate rest

/-- Prefix of `cs` before the first occurrence of `pat`; `none` when `pat`
does not occur.  Models `pat in s` plus `s.split(pat)[0]`. -/
def beforeFirst (pat : List Char) : List Char → Option (List Char)
  | [] => if pat.isPrefixOf ([] : List Char) then some [] else none
  | c :: rest =>
    if pat.isPrefixOf (c :: rest) then some []
    else (beforeFirst pat rest).map (c :: ·)

/-- An assembled output record (`Raw Record` plus the parsed address). -/
structure RawRecord where
  license_no : List Char
  license_type : List Char
  licensee_name : List Char
  dba : List Char
  address : List Char
  ssn_fein : List Char
  issue_date : List Char
  exp_date : List Char
  street : List Char
  city : List Char
  state : List Char
  zip : List Char
deriving DecidableEq, Repr

/-- The mutable state the continuation-line loop updates. -/
structure ContState where
  address : List Char
  dba : List Char
  exp_date : List Char
deriving DecidableEq, Repr

/-- One iteration of the continuation-line loop. -/
def contStep (st : ContState) (w : Word) : ContState :=
  match colOf w.x0 with
  | some .address => { st with address := st.address ++ ' ' :: w.text }
  | some .dba =>
    if st.dba = [] then
      { st with dba := if st.dba = [] then w.text else st.dba ++ ' ' :: w.text }
    else st
  | some .dates =>
    match findDate w.text with
    | some d => if st.exp_date = [] then { st with exp_date := d } else st
    | none => st
  | _ => st

/-- The continuation-line loop over all continuation words. -/
def contFold (st : ContState) (ws : List Word) : ContState :=
  ws.foldl contStep st

/-- The words of one record's vertical extent `[start_top - 2, end_top)`
(unbounded when `endTop = none`, the last record of the page). -/
def recordWords (contentWords : List Word) (startTop : ℤ) (endTop : Option ℤ) : List Word :=
  contentWords.filter (fun w =>
    startTop - 2 ≤ w.top &&
      (match endTop with
       | some e => w.top < e
       | none => true))

/-- First-line words: within the `[start_top - 2, start_top + 5)` band. -/
def firstLineWords (contentWords : List Word) (startTop : ℤ) (endTop : Option ℤ) : List Word :=
  (recordWords contentWords startTop endTop).filter (fun w => w.top < startTop + 5)

/-- Continuation words: the rest of the record's extent. -/
def continuationWords (contentWords : List Word) (startTop : ℤ) (endTop : Option ℤ) : List Word :=
  (recordWords contentWords startTop endTop).filter (fun w => startTop + 5 ≤ w.top)

/-- Model of `"Total Licenses:"`, the footer marker. -/
def footerMarker : List Char :=
  ("Total Licenses:").data

/-- Footer cleanup: collapse whitespace runs, then truncate at the footer
marker when present (`" ".flatten(address.split())` and the
`"Total Licenses:"` split). -/
def cleanAddress (address : List Char) : List Char :=
  let collapsed := joinSpace (splitWs address)
  match beforeFirst footerMarker collapsed with
  | some before => trimWs before
  | none => collapsed

/-- Assemble the record of one row start.  `parse_address` is proved total
(`claim_C10`), so the `.getD` default of the address components is
unreachable. -/
def mkRecord (contentWords : List Word) (startTop : ℤ) (endTop : Option ℤ) : RawRecord :=
  let fl := firstLineWords contentWords startTop endTop
  let cont := continuationWords contentWords startTop endTop
  let issue0 :=
    match findDate (get_column_value fl (columnRange .dates)) with
    | some d => d
    | none => []
  let st0 : ContState :=
    { address := get_column_value fl (columnRange .address),
      dba := get_column_value fl (columnRange .dba),
      exp_date := [] }
  let st1 := contFold st0 cont
  let addr := cleanAddress st1.address
  let pa := (parse_address addr).getD ⟨[], [], [], []⟩
  { license_no := get_column_value fl (columnRange .license_no),
    license_type := get_column_value fl (columnRange .license_type),
    licensee_name := get_column_value fl (columnRange .licensee_name),
    dba := st1.dba,
    address := addr,
    ssn_fein := get_column_value fl (columnRange .ssn_fein),
    issue_date := format_date issue0,
    exp_date := format_date st1.exp_date,
    street := pa.street,
    city := pa.city,
    state := pa.state,
    zip := pa.zip }

/-- Ascending sort by a rational key: the observable behavior of Python's
`list.sort()` on these keys. -/
def sortKey (f : α → ℤ) (l : List α) : List α :=
  l.insertionSort (fun x y => f x ≤ f y)

instance (f : α → ℤ) : IsTotal α (fun x y => f x ≤ f y) :=
  ⟨fun a b => le_total (f a) (f b)⟩

instance (f : α → ℤ) : IsTrans α (fun x y => f x ≤ f y) :=
  ⟨fun _ _ _ hab hbc => le_trans hab hbc⟩

/-- Pair each element with its successor (`record_starts[i + 1]`), `none` for
the last element. -/
def withNext : List ℤ → List (ℤ × Option ℤ)
  | [] => []
  | s :: rest => (s, rest.head?) :: withNext rest

/-- Header cutoff: 130 on page 1, 50 on later pages. -/
def headerCutoff (pageNumber : Nat) : ℤ :=
  if pageNumber = 1 then 130 else 50

/-- The words below the page header. -/
def contentWordsOf (pageNumber : Nat) (words : List Word) : List Word :=
  words.filter (fun w => headerCutoff pageNumber ≤ w.top)

/-- The row-start tokens of a page. -/
def rowStartTokens (pageNumber : Nat) (words : List Word) : List Word :=
  (contentWordsOf pageNumber words).filter isRowStart

/-- Model of `record_starts` before sorting: the `top` of every row-start token. -/
def rowStartTops (pageNumber : Nat) (words : List Word) : List ℤ :=
  (rowStartTokens pageNumber words).map (·.top)

/-- Model of `record_starts` after `record_starts.sort()`. -/
def sortedRowStarts (pageNumber : Nat) (words : List Word) : List ℤ :=
  sortKey id (rowStartTops pageNumber words)

/-- Model of `extract_pharmacy_records` restricted to one page: one record per sorted
row start, each bounded by the following start. -/
def extract_pharmacy_records_page (pageNumber : Nat) (words : List Word) : List RawRecord :=
  let cw := contentWordsOf pageNumber words
  (withNext (sortedRowStarts pageNumber words)).map (fun q => mkRecord cw q.1 q.2)

/-!
### Declarative shape of the state/zip anchor
-/

/-- Every character is whitespace. -/
def IsWsRun (l : List Char) : Prop :=
  ∀ c ∈ l, isWsChar c = true

/-- The shape of `\d{5}(?:-\d{4})?`. -/
def ZipShape (z : List Char) : Prop :=
  (z.length = 5 ∧ ∀ c ∈ z, isDigitChar c = true) ∨
    (∃ z5 z4, z = z5 ++ '-' :: z4 ∧ z5.length = 5 ∧ z4.length = 4 ∧
      (∀ c ∈ z5, isDigitChar c = true) ∧ (∀ c ∈ z4, isDigitChar c = true))

/-- The address ends in whitespace, two uppercase letters, whitespace and a
zip: the declarative reading of the anchor regex. -/
def HasStateZipEnding (address : List Char) : Prop :=
  ∃ pre ws1 a b ws2 z,
    address = pre ++ ws1 ++ a :: b :: (ws2 ++ z) ∧
    ws1 ≠ [] ∧ IsWsRun ws1 ∧ isUpperChar a = true ∧ isUpperChar b = true ∧
    ws2 ≠ [] ∧ IsWsRun ws2 ∧ ZipShape z

instance (l : List Char) : Decidable (IsWsRun l) :=
  inferInstanceAs (Decidable (∀ c ∈ l, isWsChar c = true))

/-!
### Record-assembler claims
-/

/-- Modelled from the spec (claim C9's reading of the Column Classifier):
same-column tokens joined left-to-right by ascending `x0`, independent of
input order. -/
def get_column_value_sorted (words : List Word) (colRange : ℤ × ℤ) : List Char :=
  joinSpace ((sortKey Word.x0
    (words.filter (fun w => colRange.1 ≤ w.x0 && w.x0 < colRange.2))).map (·.text))

/-!
### The street-suffix scan: last-match-wins characterization (claim C4)
-/

/-- Modelled from the claim's description of the scan: the boundary
candidates produced walking left to right — each vocabulary hit at its own
index, each unit-keyword-followed-by-designator hit at the following index. -/
def suffixCands (i : Nat) : List (List Char) → List Nat
  | [] => []
  | w :: rest =>
    (if normWord w ∈ STREET_SUFFIXES then [i] else []) ++
      ((if normWord w ∈ UNIT_KEYWORDS &&
          (match rest.head? with
           | some n => isUnitDesig n
           | none => false) then [i + 1] else []) ++
        suffixCands (i + 1) rest)

/-!
### Mail-routing claim (C7)
-/

/-- The claim's marker condition: the span splits into a prefix, a non-empty
whitespace run and a suffix starting with the ATTN/MC alternation. -/
def MarkerSplit (cs a m : List Char) : Prop :=
  ∃ ws, cs = a ++ ws ++ m ∧ ws ≠ [] ∧ IsWsRun ws ∧ altMatchB m = true

/-- Decidable check that a marker (whitespace then the ATTN/MC alternation)
sits at offset `k` of `cs`; used to discharge first-marker hypotheses on
concrete inputs. -/
def markerAtB (cs : List Char) (k : Nat) : Bool :=
  match cs.drop k with
  | c :: t => isWsChar c && altMatchB ((c :: t).dropWhile isWsChar)
  | [] => false

/-!
### PO-box claim (C8)
-/

/-- Character-wise case-insensitive match against a pre-lowered literal. -/
def CiWord (u lit : List Char) : Prop :=
  List.Forall₂ (fun c l => c.toLower = l) u lit

/-- Digits-only run. -/
def IsDigitRun (l : List Char) : Prop :=
  ∀ c ∈ l, isDigitChar c = true

/-- The optional `PO\s+` prefix of the box designator. -/
def PoShape (po : List Char) : Prop :=
  po = [] ∨ ∃ p2 wsP, CiWord p2 (("po").data) ∧ wsP ≠ [] ∧ IsWsRun wsP ∧ po = p2 ++ wsP

/-- A decomposition of the span witnessing that the box pattern matches with
leading group `g1` (raw form: no condition on the trailing text's start). -/
def BoxSplitRaw (cs g1 : List Char) : Prop :=
  ∃ ws0 po bx wsB ds wsT t,
    cs = g1 ++ ws0 ++ (po ++ bx ++ wsB ++ ds) ++ wsT ++ t ∧
    IsWsRun ws0 ∧ PoShape po ∧ CiWord bx (("box").data) ∧
    wsB ≠ [] ∧ IsWsRun wsB ∧ ds ≠ [] ∧ IsDigitRun ds ∧
    wsT ≠ [] ∧ IsWsRun wsT ∧ t ≠ []

instance (l : List Char) : Decidable (IsDigitRun l) :=
  inferInstanceAs (Decidable (∀ c ∈ l, isDigitChar c = true))

/-!
### Basic facts about the character classes and list helpers
-/

lemma ws_not_digit {c : Char} (h : isWsChar c = true) : isDigitChar c = false := by
  simp only [isWsChar, Bool.or_eq_true, decide_eq_true_eq] at h
  rcases h with ((((h | h) | h) | h) | h) | h <;> subst h <;> decide

lemma ws_not_upper {c : Char} (h : isWsChar c = true) : isUpperChar c = false := by
  simp only [isWsChar, Bool.or_eq_true, decide_eq_true_eq] at h
  rcases h with ((((h | h) | h) | h) | h) | h <;> subst h <;> decide

lemma upper_not_ws {c : Char} (h : isUpperChar c = true) : isWsChar c = false := by
  cases hw : isWsChar c with
  | false => rfl
  | true => rw [ws_not_upper hw] at h; cases h

lemma digit_not_ws {c : Char} (h : isDigitChar c = true) : isWsChar c = false := by
  cases hw : isWsChar c with
  | false => rfl
  | true => rw [ws_not_digit hw] at h; cases h

lemma takeWhile_all_append (p : α → Bool) (l1 l2 : List α) (h : ∀ x ∈ l1, p x = true) :
    (l1 ++ l2).takeWhile p = l1 ++ l2.takeWhile p := by
  induction l1 with
  | nil => simp
  | cons a t ih =>
    rw [List.cons_append, List.takeWhile_cons_of_pos (h a (by simp)),
      ih (fun x hx => h x (by simp [hx])), List.cons_append]

lemma dropWhile_all_append (p : α → Bool) (l1 l2 : List α) (h : ∀ x ∈ l1, p x = true) :
    (l1 ++ l2).dropWhile p = l2.dropWhile p := by
  induction l1 with
  | nil => simp
  | cons a t ih =>
    rw [List.cons_append, List.dropWhile_cons_of_pos (h a (by simp))]
    exact ih (fun x hx => h x (by simp [hx]))

lemma takeWhile_cons_false (p : α → Bool) (c : α) (l : List α) (h : p c = false) :
    (c :: l).takeWhile p = [] := by
  simp [List.takeWhile_cons, h]

lemma dropWhile_cons_false (p : α → Bool) (c : α) (l : List α) (h : p c = false) :
    (c :: l).dropWhile p = c :: l := by
  simp [List.dropWhile_cons, h]

lemma dropWhile_head_false (p : α → Bool) (l : List α) (c : α) (t : List α)
    (h : l.dropWhile p = c :: t) : p c = false := by
  induction l with
  | nil => simp at h
  | cons a l ih =>
    by_cases hp : p a
    · rw [List.dropWhile_cons, if_pos hp] at h; exact ih h
    · rw [List.dropWhile_cons, if_neg hp] at h
      cases h; simpa using hp

lemma mem_of_mem_dropWhile (p : α → Bool) (l : List α) (x : α)
    (h : x ∈ l.dropWhile p) : x ∈ l :=
  (List.dropWhile_sublist p).mem h

lemma joinSpace_ne_nil (l : List (List Char)) (t : List Char) (ht : t ∈ l) (hne : t ≠ []) :
    joinSpace l ≠ [] := by
  induction l with
  | nil => simp at ht
  | cons w rest ih =>
    cases rest with
    | nil =>
      simp only [List.mem_singleton] at ht
      subst ht; simpa [joinSpace] using hne
    | cons w2 rest2 =>
      simp [joinSpace]

lemma splitWsAux_ne_nil_of_acc (cs : List Char) (acc : List Char) (h : acc ≠ []) :
    splitWsAux acc cs ≠ [] := by
  induction cs generalizing acc with
  | nil => simp [splitWsAux, h]
  | cons c rest ih =>
    simp only [splitWsAux]
    by_cases hw : isWsChar c
    · simp only [hw, if_true, if_neg h]
      intro hcontra; cases hcontra
    · simp only [hw]
      exact ih (c :: acc) (by simp)

lemma splitWs_ne_nil (cs : List Char) (c : Char) (hc : c ∈ cs) (hw : isWsChar c = false) :
    splitWs cs ≠ [] := by
  unfold splitWs
  induction cs with
  | nil => simp at hc
  | cons a rest ih =>
    simp only [splitWsAux]
    by_cases hwa : isWsChar a
    · have hcr : c ∈ rest := by
        rcases List.mem_cons.mp hc with h | h
        · subst h; rw [hwa] at hw; cases hw
        · exact h
      simp only [hwa, if_true, if_pos rfl]
      exact ih hcr
    · simp only [hwa]
      exact splitWsAux_ne_nil_of_acc rest [a] (by simp)

lemma lastCapOrLast_isSome (words : List (List Char)) (h : words ≠ []) :
    ∃ w, lastCapOrLast words = some w := by
  unfold lastCapOrLast
  cases hf : words.reverse.find? isCapWord with
  | some w => exact ⟨w, rfl⟩
  | none =>
    have : words.getLast?.isSome := List.getLast?_isSome.mpr h
    rcases Option.isSome_iff_exists.mp this with ⟨w, hw⟩
    exact ⟨w, by rw [hw]⟩

lemma takeWhile_ws_nonempty_prefix (ws1 l2 : List Char) (h1 : ws1 ≠ []) (hr : IsWsRun ws1) :
    (ws1 ++ l2).takeWhile isWsChar ≠ [] := by
  rw [takeWhile_all_append isWsChar ws1 l2 hr]
  intro hcontra
  exact h1 (List.append_eq_nil.mp hcontra).1

lemma stateZipAfterZip_complete (zipRev pre ws1 ws2r : List Char) (a b : Char)
    (hw1 : ws1 ≠ []) (hr1 : IsWsRun ws1)
    (ha : isUpperChar a = true) (hb : isUpperChar b = true)
    (hw2 : ws2r ≠ []) (hr2 : IsWsRun ws2r) :
    stateZipAfterZip zipRev (ws2r ++ b :: a :: (ws1.reverse ++ pre.reverse)) =
      some (((pre.reverse).dropWhile isWsChar).reverse, [a, b], zipRev.reverse) := by
  have hbws : isWsChar b = false := upper_not_ws hb
  have htk : (ws2r ++ b :: a :: (ws1.reverse ++ pre.reverse)).takeWhile isWsChar = ws2r := by
    rw [takeWhile_all_append isWsChar ws2r _ hr2, takeWhile_cons_false _ _ _ hbws,
      List.append_nil]
  have hdr : (ws2r ++ b :: a :: (ws1.reverse ++ pre.reverse)).dropWhile isWsChar =
      b :: a :: (ws1.reverse ++ pre.reverse) := by
    rw [dropWhile_all_append isWsChar ws2r _ hr2, dropWhile_cons_false _ _ _ hbws]
  have hr1' : IsWsRun ws1.reverse := fun c hc => hr1 c (List.mem_reverse.mp hc)
  have hne1 : (ws1.reverse ++ pre.reverse).takeWhile isWsChar ≠ [] :=
    takeWhile_ws_nonempty_prefix ws1.reverse pre.reverse (by simpa using hw1) hr1'
  have hdr1 : (ws1.reverse ++ pre.reverse).dropWhile isWsChar =
      (pre.reverse).dropWhile isWsChar :=
    dropWhile_all_append isWsChar _ _ hr1'
  unfold stateZipAfterZip
  simp only [htk, hdr, hdr1]
  rw [if_neg hw2]
  simp only [ha, hb, Bool.and_self, if_true, if_pos rfl]
  rw [if_neg hne1]

lemma stateZipSearch_complete (pre ws1 ws2 z : List Char) (a b : Char)
    (hw1 : ws1 ≠ []) (hr1 : IsWsRun ws1)
    (ha : isUpperChar a = true) (hb : isUpperChar b = true)
    (hw2 : ws2 ≠ []) (hr2 : IsWsRun ws2) (hz : ZipShape z) :
    stateZipSearch (pre ++ ws1 ++ a :: b :: (ws2 ++ z)) =
      some (((pre.reverse).dropWhile isWsChar).reverse, [a, b], z) := by
  have hrev : (pre ++ ws1 ++ a :: b :: (ws2 ++ z)).reverse =
      z.reverse ++ (ws2.reverse ++ b :: a :: (ws1.reverse ++ pre.reverse)) := by
    simp
  have hw2r : ws2.reverse ≠ [] := by simpa using hw2
  have hr2r : IsWsRun ws2.reverse := fun c hc => hr2 c (List.mem_reverse.mp hc)
  obtain ⟨w0, wt, hwcons⟩ := List.exists_cons_of_ne_nil hw2r
  have hw0ws : isWsChar w0 = true := hr2r w0 (by rw [hwcons]; simp)
  have hw0d : isDigitChar w0 = false := ws_not_digit hw0ws
  have htail : ws2.reverse ++ b :: a :: (ws1.reverse ++ pre.reverse) =
      w0 :: (wt ++ b :: a :: (ws1.reverse ++ pre.reverse)) := by
    rw [hwcons]; simp
  have htkz : (ws2.reverse ++ b :: a :: (ws1.reverse ++ pre.reverse)).takeWhile isDigitChar
      = [] := by
    rw [htail]; exact takeWhile_cons_false _ _ _ hw0d
  have hdrz : (ws2.reverse ++ b :: a :: (ws1.reverse ++ pre.reverse)).dropWhile isDigitChar
      = ws2.reverse ++ b :: a :: (ws1.reverse ++ pre.reverse) := by
    rw [htail, dropWhile_cons_false _ _ _ hw0d, ← htail]
  unfold stateZipSearch
  rcases hz with ⟨hlen, hdig⟩ | ⟨z5, z4, hzeq, hl5, hl4, hd5, hd4⟩
  · -- five-digit zip
    have hdigr : ∀ c ∈ z.reverse, isDigitChar c = true :=
      fun c hc => hdig c (List.mem_reverse.mp hc)
    have htk : (z.reverse ++ (ws2.reverse ++ b :: a :: (ws1.reverse ++
        pre.reverse))).takeWhile isDigitChar = z.reverse := by
      rw [takeWhile_all_append isDigitChar _ _ hdigr, htkz, List.append_nil]
    have hdr : (z.reverse ++ (ws2.reverse ++ b :: a :: (ws1.reverse ++
        pre.reverse))).dropWhile isDigitChar =
        ws2.reverse ++ b :: a :: (ws1.reverse ++ pre.reverse) := by
      rw [dropWhile_all_append isDigitChar _ _ hdigr, hdrz]
    have hlenr : z.reverse.length = 5 := by simpa using hlen
    simp only [hrev, htk, hdr, hlenr]
    rw [if_pos trivial,
      stateZipAfterZip_complete z.reverse pre ws1 ws2.reverse a b hw1 hr1 ha hb hw2r hr2r]
    simp
  · -- nine-digit zip
    have hd5r : ∀ c ∈ z5.reverse, isDigitChar c = true :=
      fun c hc => hd5 c (List.mem_reverse.mp hc)
    have hd4r : ∀ c ∈ z4.reverse, isDigitChar c = true :=
      fun c hc => hd4 c (List.mem_reverse.mp hc)
    have hzr : z.reverse ++ (ws2.reverse ++ b :: a :: (ws1.reverse ++ pre.reverse)) =
        z4.reverse ++ '-' :: (z5.reverse ++ (ws2.reverse ++ b :: a :: (ws1.reverse ++
          pre.reverse))) := by
      rw [hzeq]; simp
    have hdashd : isDigitChar '-' = false := by decide
    have htk : (z4.reverse ++ '-' :: (z5.reverse ++ (ws2.reverse ++ b :: a :: (ws1.reverse ++
        pre.reverse)))).takeWhile isDigitChar = z4.reverse := by
      rw [takeWhile_all_append isDigitChar _ _ hd4r, takeWhile_cons_false _ _ _ hdashd,
        List.append_nil]
    have hdr : (z4.reverse ++ '-' :: (z5.reverse ++ (ws2.reverse ++ b :: a :: (ws1.reverse ++
        pre.reverse)))).dropWhile isDigitChar = '-' :: (z5.reverse ++ (ws2.reverse ++
        b :: a :: (ws1.reverse ++ pre.reverse))) := by
      rw [dropWhile_all_append isDigitChar _ _ hd4r, dropWhile_cons_false _ _ _ hdashd]
    have htk5 : (z5.reverse ++ (ws2.reverse ++ b :: a :: (ws1.reverse ++
        pre.reverse))).takeWhile isDigitChar = z5.reverse := by
      rw [takeWhile_all_append isDigitChar _ _ hd5r, htkz, List.append_nil]
    have hdr5 : (z5.reverse ++ (ws2.reverse ++ b :: a :: (ws1.reverse ++
        pre.reverse))).dropWhile isDigitChar =
        ws2.reverse ++ b :: a :: (ws1.reverse ++ pre.reverse) := by
      rw [dropWhile_all_append isDigitChar _ _ hd5r, hdrz]
    have hl4r : z4.reverse.length = 4 := by simpa using hl4
    have hl5r : z5.reverse.length = 5 := by simpa using hl5
    simp only [hrev, hzr, htk, hdr, hl4r]
    rw [if_pos trivial]
    simp only [htk5, hdr5, hl5r]
    rw [if_pos trivial,
      stateZipAfterZip_complete (z4.reverse ++ '-' :: z5.reverse) pre ws1 ws2.reverse a b
        hw1 hr1 ha hb hw2r hr2r, hzeq]
    simp

lemma stateZipAfterZip_sound (zipRev rem pre st z : List Char)
    (h : stateZipAfterZip zipRev rem = some (pre, st, z)) :
    ∃ b a ws2 ws1 rem4,
      rem = ws2 ++ b :: a :: (ws1 ++ rem4) ∧
      ws2 ≠ [] ∧ IsWsRun ws2 ∧ isUpperChar a = true ∧ isUpperChar b = true ∧
      ws1 ≠ [] ∧ IsWsRun ws1 ∧ pre = rem4.reverse ∧ st = [a, b] ∧
      z = zipRev.reverse := by
  simp only [stateZipAfterZip] at h
  by_cases htk : rem.takeWhile isWsChar = []
  · rw [if_pos htk] at h; cases h
  · rw [if_neg htk] at h
    cases hdk : rem.dropWhile isWsChar with
    | nil => rw [hdk] at h; cases h
    | cons b rest =>
      cases rest with
      | nil => rw [hdk] at h; cases h
      | cons a rem3 =>
        rw [hdk] at h
        dsimp only at h
        by_cases hab : (isUpperChar b && isUpperChar a) = true
        · rw [if_pos hab] at h
          by_cases hw1 : rem3.takeWhile isWsChar = []
          · rw [if_pos hw1] at h; cases h
          · rw [if_neg hw1] at h
            rw [Option.some.injEq, Prod.mk.injEq, Prod.mk.injEq] at h
            obtain ⟨hpre, hst, hz⟩ := h
            have hab2 : isUpperChar b = true ∧ isUpperChar a = true := by simpa using hab
            obtain ⟨hb, ha⟩ := hab2
            refine ⟨b, a, rem.takeWhile isWsChar, rem3.takeWhile isWsChar,
              rem3.dropWhile isWsChar, ?_, htk, ?_, ha, hb, hw1, ?_, hpre.symm, hst.symm,
              hz.symm⟩
            · conv_lhs => rw [← List.takeWhile_append_dropWhile (p := isWsChar) (l := rem)]
              rw [hdk]
              congr 2
              exact congrArg (List.cons a) (List.takeWhile_append_dropWhile isWsChar rem3).symm
            · exact fun c hc => List.mem_takeWhile_imp hc
            · exact fun c hc => List.mem_takeWhile_imp hc
        · rw [if_neg hab] at h; cases h

lemma stateZipSearch_sound (address pre st z : List Char)
    (h : stateZipSearch address = some (pre, st, z)) :
    ∃ a b, st = [a, b] ∧ isUpperChar a = true ∧ isUpperChar b = true ∧ ZipShape z ∧
      ∃ wsA wsB, address = pre ++ wsA ++ a :: b :: (wsB ++ z) ∧
        wsA ≠ [] ∧ IsWsRun wsA ∧ wsB ≠ [] ∧ IsWsRun wsB := by
  simp only [stateZipSearch] at h
  by_cases h4 : (address.reverse.takeWhile isDigitChar).length = 4
  · rw [if_pos h4] at h
    cases hr1 : address.reverse.dropWhile isDigitChar with
    | nil => rw [hr1] at h; cases h
    | cons c0 r2 =>
      rw [hr1] at h
      dsimp only at h
      by_cases hdash : c0 = '-'
      · rw [if_pos hdash] at h
        subst hdash
        by_cases h5 : (r2.takeWhile isDigitChar).length = 5
        · rw [if_pos h5] at h
          obtain ⟨b, a, ws2, ws1, rem4, hrem, hw2, hr2, ha, hb, hw1, hrw1, hpre, hst, hz⟩ :=
            stateZipAfterZip_sound _ _ _ _ _ h
          refine ⟨a, b, hst, ha, hb, ?_, ws1.reverse, ws2.reverse, ?_, ?_, ?_, ?_, ?_⟩
          · right
            refine ⟨(r2.takeWhile isDigitChar).reverse,
              (address.reverse.takeWhile isDigitChar).reverse, ?_, by simpa using h5,
              by simpa using h4, ?_, ?_⟩
            · rw [hz]; simp
            · exact fun c hc => List.mem_takeWhile_imp (List.mem_reverse.mp hc)
            · exact fun c hc => List.mem_takeWhile_imp (List.mem_reverse.mp hc)
          · apply List.reverse_injective
            have haddr : address.reverse =
                address.reverse.takeWhile isDigitChar ++
                  '-' :: (r2.takeWhile isDigitChar ++ (ws2 ++ b :: a :: (ws1 ++ rem4))) := by
              conv_lhs => rw [← List.takeWhile_append_dropWhile (p := isDigitChar)
                (l := address.reverse)]
              rw [hr1]
              congr 1
              rw [← hrem]
              exact congrArg (List.cons '-') (List.takeWhile_append_dropWhile isDigitChar r2).symm
            rw [haddr, hpre, hz]
            simp
          · simpa using hw1
          · exact fun c hc => hrw1 c (List.mem_reverse.mp hc)
          · simpa using hw2
          · exact fun c hc => hr2 c (List.mem_reverse.mp hc)
        · rw [if_neg h5] at h; cases h
      · rw [if_neg hdash] at h; cases h
  · rw [if_neg h4] at h
    by_cases h5 : (address.reverse.takeWhile isDigitChar).length = 5
    · rw [if_pos h5] at h
      obtain ⟨b, a, ws2, ws1, rem4, hrem, hw2, hr2, ha, hb, hw1, hrw1, hpre, hst, hz⟩ :=
        stateZipAfterZip_sound _ _ _ _ _ h
      refine ⟨a, b, hst, ha, hb, ?_, ws1.reverse, ws2.reverse, ?_, ?_, ?_, ?_, ?_⟩
      · left
        constructor
        · rw [hz]; simpa using h5
        · rw [hz]
          exact fun c hc => List.mem_takeWhile_imp (List.mem_reverse.mp hc)
      · apply List.reverse_injective
        have haddr : address.reverse =
            address.reverse.takeWhile isDigitChar ++ (ws2 ++ b :: a :: (ws1 ++ rem4)) := by
          conv_lhs => rw [← List.takeWhile_append_dropWhile (p := isDigitChar)
            (l := address.reverse)]
          rw [← hrem]
        rw [haddr, hpre, hz]
        simp
      · simpa using hw1
      · exact fun c hc => hrw1 c (List.mem_reverse.mp hc)
      · simpa using hw2
      · exact fun c hc => hr2 c (List.mem_reverse.mp hc)
    · rw [if_neg h5] at h; cases h

/-!
### Soundness of the mail-routing marker scan, and totality of `parse_address`
-/

lemma ws_toLower_self {c : Char} (h : isWsChar c = true) : c.toLower = c := by
  simp only [isWsChar, Bool.or_eq_true, decide_eq_true_eq] at h
  rcases h with ((((h | h) | h) | h) | h) | h <;> subst h <;> decide

lemma attnFind_sound (cs u v : List Char) (h : attnFind cs = some (u, v)) :
    cs = u ++ v ∧ ∃ c t, v = c :: t ∧ isWsChar c = true ∧
      altMatchB (v.dropWhile isWsChar) = true := by
  induction cs generalizing u with
  | nil => simp [attnFind] at h
  | cons c rest ih =>
    rw [attnFind] at h
    by_cases hc : (isWsChar c && altMatchB ((c :: rest).dropWhile isWsChar)) = true
    · rw [if_pos hc] at h
      rw [Option.some.injEq, Prod.mk.injEq] at h
      obtain ⟨hu, hv⟩ := h
      have hc2 : isWsChar c = true ∧ altMatchB ((c :: rest).dropWhile isWsChar) = true := by
        simpa using hc
      subst hu
      refine ⟨by rw [← hv]; simp, c, rest, hv.symm, hc2.1, ?_⟩
      rw [← hv]; exact hc2.2
    · rw [if_neg hc] at h
      cases hrec : attnFind rest with
      | none => rw [hrec] at h; cases h
      | some p =>
        obtain ⟨u', v'⟩ := p
        rw [hrec] at h
        rw [Option.map_some', Option.some.injEq, Prod.mk.injEq] at h
        obtain ⟨hu, hv⟩ := h
        subst hv
        obtain ⟨hsplit, hprops⟩ := ih u' hrec
        refine ⟨?_, hprops⟩
        rw [← hu, hsplit]; simp

lemma ciConsume_cons_ne (l : Char) (ls : List Char) (c : Char) (cs : List Char)
    (h : ¬ c.toLower = l) : ciConsume (l :: ls) (c :: cs) = none := by
  simp [ciConsume, h]

lemma altMatchB_not_ws_head (m : List Char) (h : altMatchB m = true) :
    ∃ d t, m = d :: t ∧ isWsChar d = false := by
  cases m with
  | nil => exact absurd h (by decide)
  | cons d t =>
    refine ⟨d, t, rfl, ?_⟩
    cases hb : isWsChar d with
    | false => rfl
    | true =>
      exfalso
      have hlow : d.toLower = d := ws_toLower_self hb
      have hfa : ¬ d.toLower = 'a' := by
        intro hda; rw [hlow] at hda; subst hda; exact absurd hb (by decide)
      have hfm : ¬ d.toLower = 'm' := by
        intro hdm; rw [hlow] at hdm; subst hdm; exact absurd hb (by decide)
      have hA : ciConsume (("attn").data) (d :: t) = none := by
        have he : ("attn").data = 'a' :: ("ttn").data := rfl
        rw [he]; exact ciConsume_cons_ne _ _ _ _ hfa
      have hM : ciConsume (("mc").data) (d :: t) = none := by
        have he : ("mc").data = 'm' :: ("c").data := rfl
        rw [he]; exact ciConsume_cons_ne _ _ _ _ hfm
      have hz : altMatchB (d :: t) = false := by
        unfold altMatchB
        rw [hA, hM]
        rfl
      rw [hz] at h
      cases h

lemma attnFind_words_ne_nil (sc u v : List Char) (h : attnFind sc = some (u, v)) :
    splitWs sc ≠ [] := by
  obtain ⟨hsplit, c, t, hv, hws, halt⟩ := attnFind_sound sc u v h
  obtain ⟨d, t', hdrop, hdws⟩ := altMatchB_not_ws_head _ halt
  have hdmem : d ∈ v := by
    apply mem_of_mem_dropWhile isWsChar v
    rw [hdrop]; simp
  have hdcs : d ∈ sc := by rw [hsplit]; simp [hdmem]
  exact splitWs_ne_nil sc d hdcs hdws

lemma suffixSplit_state_zip (sc st zp : List Char) :
    (suffixSplit sc st zp).state = st ∧ (suffixSplit sc st zp).zip = zp := by
  unfold suffixSplit
  dsimp only
  rcases hidx : streetEndIdx (splitWs sc) with _ | b <;> dsimp only <;>
    split_ifs <;> exact ⟨rfl, rfl⟩

lemma parse_address_state_zip (address pre st zp : List Char) (hne : address ≠ [])
    (h : stateZipSearch address = some (pre, st, zp)) :
    ∃ r, parse_address address = some r ∧ r.state = st ∧ r.zip = zp := by
  unfold parse_address
  rw [if_neg hne, h]
  dsimp only
  cases hat : attnFind (trimWs pre) with
  | some uv =>
    obtain ⟨u, v⟩ := uv
    dsimp only
    obtain ⟨city, hcity⟩ :=
      lastCapOrLast_isSome (splitWs (trimWs pre)) (attnFind_words_ne_nil _ _ _ hat)
    rw [hcity]
    exact ⟨_, rfl, rfl, rfl⟩
  | none =>
    cases hbox : boxFind (trimWs pre) with
    | some g =>
      obtain ⟨g1, g2, g3⟩ := g
      exact ⟨_, rfl, rfl, rfl⟩
    | none =>
      dsimp only
      obtain ⟨hst, hzp⟩ := suffixSplit_state_zip (trimWs pre) st zp
      exact ⟨_, rfl, hst, hzp⟩

/-- C10: `parse_address` is total and safe: on every input it terminates
without an exception (in particular the `words[-1]` access of the
mail-routing branch is reachable only with a non-empty word list) and returns
a record with exactly the four string fields street, city, state, zip. -/
theorem claim_C10 (address : List Char) : ∃ r : ParsedAddr, parse_address address = some r := by
  by_cases hne : address = []
  · subst hne
    exact ⟨⟨[], [], [], []⟩, rfl⟩
  · cases hsz : stateZipSearch address with
    | none =>
      refine ⟨⟨address, [], [], []⟩, ?_⟩
      unfold parse_address
      rw [if_neg hne, hsz]
    | some p =>
      obtain ⟨pre, st, zp⟩ := p
      obtain ⟨r, hr, -, -⟩ := parse_address_state_zip address pre st zp hne hsz
      exact ⟨r, hr⟩

lemma stateZipSearch_isSome_of_ending (address : List Char) (h : HasStateZipEnding address) :
    (stateZipSearch address).isSome = true := by
  obtain ⟨pre, ws1, a, b, ws2, z, haddr, hw1, hr1, ha, hb, hw2, hr2, hz⟩ := h
  rw [haddr, stateZipSearch_complete pre ws1 ws2 z a b hw1 hr1 ha hb hw2 hr2 hz]
  rfl

/-- C1: for every address ending in whitespace, two uppercase letters,
whitespace and a 5-digit zip (optionally `-dddd`), `parse_address` returns
exactly that state and zip; for every non-empty address with no such ending
it returns the whole input as street with the other fields empty; the empty
string gives four empty fields. -/
theorem claim_C1 :
    (∀ pre ws1 ws2 z (a b : Char), ws1 ≠ [] → IsWsRun ws1 →
      isUpperChar a = true → isUpperChar b = true → ws2 ≠ [] → IsWsRun ws2 → ZipShape z →
      ∃ r, parse_address (pre ++ ws1 ++ a :: b :: (ws2 ++ z)) = some r ∧
        r.state = [a, b] ∧ r.zip = z) ∧
    (∀ address, address ≠ [] → ¬ HasStateZipEnding address →
      parse_address address = some ⟨address, [], [], []⟩) ∧
    parse_address [] = some ⟨[], [], [], []⟩ := by
  refine ⟨?_, ?_, rfl⟩
  · intro pre ws1 ws2 z a b hw1 hr1 ha hb hw2 hr2 hz
    have hne : (pre ++ ws1 ++ a :: b :: (ws2 ++ z)) ≠ [] := by simp
    exact parse_address_state_zip _ _ _ _ hne
      (stateZipSearch_complete pre ws1 ws2 z a b hw1 hr1 ha hb hw2 hr2 hz)
  · intro address hne hno
    cases hsz : stateZipSearch address with
    | none =>
      unfold parse_address
      rw [if_neg hne, hsz]
    | some p =>
      exfalso
      obtain ⟨pre, st, zp⟩ := p
      obtain ⟨a, b, hst, ha, hb, hz, wsA, wsB, haddr, hwA, hrA, hwB, hrB⟩ :=
        stateZipSearch_sound address pre st zp hsz
      exact hno ⟨pre, wsA, a, b, wsB, zp, haddr, hwA, hrA, ha, hb, hwB, hrB, hz⟩

theorem claim_C1_witness :
    (∃ r, parse_address (("123 Main St Springfield").data ++ [' '] ++ 'I' :: 'L' ::
        ([' '] ++ ("62701").data)) = some r ∧ r.state = ['I', 'L'] ∧
        r.zip = ("62701").data) ∧
    parse_address (("hello").data) = some ⟨("hello").data, [], [], []⟩ := by
  constructor
  · exact claim_C1.1 (("123 Main St Springfield").data) [' '] [' '] (("62701").data) 'I' 'L'
      (by decide) (by decide) (by decide) (by decide) (by decide) (by decide)
      (Or.inl (by decide))
  · apply claim_C1.2.1 (("hello").data) (by decide)
    intro hHas
    have hsome := stateZipSearch_isSome_of_ending _ hHas
    rw [show stateZipSearch (("hello").data) = none from rfl] at hsome
    cases hsome

/-- C6: `format_date` returns `""` on the empty string, rewrites input that
parses under `%m/%d/%Y` to ISO form (e.g. `03/15/2024` to `2024-03-15`), and
returns every input that fails to parse unchanged, with no exception
escaping. -/
theorem claim_C6 :
    format_date ([]) = [] ∧
    format_date (("03/15/2024").data) = ("2024-03-15").data ∧
    format_date (("not-a-date").data) = ("not-a-date").data ∧
    (∀ cs, parseMDY cs = none → format_date cs = cs) ∧
    (∀ cs m d y, parseMDY cs = some (m, d, y) → cs ≠ [] →
      format_date cs = renderISO y m d) := by
  refine ⟨rfl, by decide, by decide, ?_, ?_⟩
  · intro cs hno
    unfold format_date
    split_ifs with h
    · rw [h]
    · rw [hno]
  · intro cs m d y hp hne
    unfold format_date
    rw [if_neg hne, hp]

theorem claim_C6_witness :
    format_date (("31/31/2024").data) = ("31/31/2024").data :=
  claim_C6.2.2.2.1 (("31/31/2024").data) (by decide)

lemma withNext_length (l : List ℤ) : (withNext l).length = l.length := by
  induction l with
  | nil => rfl
  | cons s rest ih => simp [withNext, ih]

/-- C2: a page emits exactly one record per row-start token (a numeric token
in the license column at or below the header cutoff), the records following
the ascending order of the sorted row-start positions; zero row-start tokens
give zero records. -/
theorem claim_C2 (pageNumber : Nat) (words : List Word) :
    (extract_pharmacy_records_page pageNumber words).length =
      (rowStartTokens pageNumber words).length ∧
    List.Sorted (· ≤ ·) (sortedRowStarts pageNumber words) ∧
    (rowStartTokens pageNumber words = [] →
      extract_pharmacy_records_page pageNumber words = []) := by
  refine ⟨?_, ?_, ?_⟩
  · show ((withNext (sortedRowStarts pageNumber words)).map _).length = _
    rw [List.length_map, withNext_length]
    unfold sortedRowStarts sortKey
    rw [(List.perm_insertionSort _ _).length_eq]
    unfold rowStartTops
    rw [List.length_map]
  · exact List.sorted_insertionSort (fun x y => id x ≤ id y) _
  · intro h
    show (withNext (sortedRowStarts pageNumber words)).map _ = _
    unfold sortedRowStarts rowStartTops
    rw [h]
    rfl

theorem claim_C2_witness : extract_pharmacy_records_page 1 [] = [] :=
  (claim_C2 1 []).2.2 rfl

lemma mkRecord_license_ne (cw : List Word) (s : ℤ) (e : Option ℤ) (w : Word)
    (hw : w ∈ cw) (hrs : isRowStart w = true) (htop : w.top = s)
    (he : ∀ e', e = some e' → s < e') :
    (mkRecord cw s e).license_no ≠ [] := by
  have hrs2 : (0 ≤ w.x0 ∧ w.x0 < 90) ∧ (w.text ≠ [] ∧ w.text.all isDigitChar) := by
    have := hrs
    simp only [isRowStart, isDigitStr, Bool.and_eq_true, decide_eq_true_eq] at this
    exact ⟨⟨this.1.1, this.1.2⟩, ⟨by simpa using this.2.1, this.2.2⟩⟩
  have hmemr : w ∈ recordWords cw s e := by
    rw [recordWords, List.mem_filter]
    refine ⟨hw, ?_⟩
    simp only [Bool.and_eq_true, decide_eq_true_eq]
    constructor
    · rw [htop]; linarith
    · cases e with
      | none => rfl
      | some e' =>
        simp only [decide_eq_true_eq]
        rw [htop]
        exact he e' rfl
  have hmemf : w ∈ firstLineWords cw s e := by
    rw [firstLineWords, List.mem_filter]
    refine ⟨hmemr, ?_⟩
    simp only [decide_eq_true_eq]
    rw [htop]; linarith
  show get_column_value (firstLineWords cw s e) (columnRange .license_no) ≠ []
  unfold get_column_value
  apply joinSpace_ne_nil _ w.text
  · apply List.mem_map_of_mem
    rw [List.mem_filter]
    refine ⟨hmemf, ?_⟩
    simp only [columnRange, Bool.and_eq_true, decide_eq_true_eq]
    exact ⟨hrs2.1.1, hrs2.1.2⟩
  · exact hrs2.2.1

lemma records_license_ne_aux (cw : List Word) (l : List ℤ)
    (hsort : List.Sorted (· ≤ ·) l) (hnd : l.Nodup)
    (hwit : ∀ s ∈ l, ∃ w ∈ cw, isRowStart w = true ∧ w.top = s) :
    ∀ r ∈ (withNext l).map (fun q => mkRecord cw q.1 q.2), r.license_no ≠ [] := by
  induction l with
  | nil => simp [withNext]
  | cons s rest ih =>
    intro r hr
    simp only [withNext, List.map_cons, List.mem_cons] at hr
    rcases hr with hr | hr
    · subst hr
      obtain ⟨w, hwmem, hwrs, hwtop⟩ := hwit s (by simp)
      apply mkRecord_license_ne cw s rest.head? w hwmem hwrs hwtop
      intro e' he'
      have he'mem : e' ∈ rest := by
        cases rest with
        | nil => cases he'
        | cons a t =>
          simp only [List.head?_cons, Option.some.injEq] at he'
          subst he'
          simp
      have hle : s ≤ e' := List.rel_of_sorted_cons hsort e' he'mem
      have hne : s ≠ e' := fun hEq => (List.nodup_cons.mp hnd).1 (hEq ▸ he'mem)
      exact lt_of_le_of_ne hle hne
    · exact ih ((List.sorted_cons.mp hsort).2) ((List.nodup_cons.mp hnd).2)
        (fun t ht => hwit t (by simp [ht])) r hr

/-- C5 (amended): provided the row-start tokens' vertical positions are
pairwise distinct, every emitted record has a non-empty `license_no`: the
row-start token lands in its own record's first-line band and license
column. -/
theorem claim_C5_amended (pageNumber : Nat) (words : List Word)
    (hnd : (rowStartTops pageNumber words).Nodup) :
    ∀ r ∈ extract_pharmacy_records_page pageNumber words, r.license_no ≠ [] := by
  have hperm := List.perm_insertionSort
    (fun x y => id x ≤ id y) (rowStartTops pageNumber words)
  apply records_license_ne_aux (contentWordsOf pageNumber words)
    (sortedRowStarts pageNumber words)
  · exact List.sorted_insertionSort _ _
  · exact (hperm.nodup_iff).mpr hnd
  · intro s hs
    have hs2 : s ∈ rowStartTops pageNumber words := hperm.mem_iff.mp hs
    unfold rowStartTops rowStartTokens at hs2
    obtain ⟨w, hwmem, hwtop⟩ := List.mem_map.mp hs2
    rw [List.mem_filter] at hwmem
    exact ⟨w, hwmem.1, hwmem.2, hwtop⟩

theorem claim_C5_counterexample :
    (extract_pharmacy_records_page 2
        [⟨("11").data, 10, 100⟩, ⟨("22").data, 10, 100⟩]).map RawRecord.license_no =
      [[], ("11 22").data] := by decide

theorem claim_C5_amended_witness :
    ¬ ([] ∈ (extract_pharmacy_records_page 2
        [⟨("77").data, 10, 100⟩]).map RawRecord.license_no) := by
  intro hmem
  rw [List.mem_map] at hmem
  obtain ⟨r, hr, hlic⟩ := hmem
  exact claim_C5_amended 2 [⟨("77").data, 10, 100⟩] (by decide) r hr hlic

lemma contStep_address (st : ContState) (w : Word) :
    (contStep st w).address =
      if colOf w.x0 = some ColName.address then st.address ++ ' ' :: w.text
      else st.address := by
  unfold contStep
  rcases h : colOf w.x0 with _ | cn
  · simp
  · cases cn with
    | address => simp
    | dba => dsimp only; split_ifs <;> simp_all
    | dates =>
      dsimp only
      cases findDate w.text with
      | none => simp
      | some d => dsimp only; split_ifs <;> simp_all
    | license_no => simp
    | license_type => simp
    | licensee_name => simp
    | ssn_fein => simp

lemma contFold_address (st : ContState) (ws : List Word) :
    (contFold st ws).address =
      st.address ++ ((ws.filter (fun v => colOf v.x0 = some ColName.address)).map
        (fun v => ' ' :: v.text)).flatten := by
  induction ws generalizing st with
  | nil => simp [contFold]
  | cons w rest ih =>
    show (contFold (contStep st w) rest).address = _
    rw [ih (contStep st w), contStep_address]
    by_cases h : colOf w.x0 = some ColName.address
    · rw [if_pos h, List.filter_cons_of_pos (by simpa using h)]
      simp
    · rw [if_neg h, List.filter_cons_of_neg (by simpa using h)]

lemma colOf_address (x : ℤ) (h1 : 495 ≤ x) (h2 : x < 640) :
    colOf x = some ColName.address := by
  unfold colOf COLUMNS
  have n1 : ¬ (x < 90) := by linarith
  have n2 : ¬ (x < 250) := by linarith
  have n3 : ¬ (x < 375) := by linarith
  have n4 : ¬ (x < 495) := by linarith
  simp [List.find?, decide_eq_false n1, decide_eq_false n2, decide_eq_false n3,
    decide_eq_false n4, decide_eq_true_eq, h1, h2]

/-- C3 (amended): a continuation token in the address column whose top lies
in the first row's extent but outside both the first-line band and the second
row's tolerance band (`top < second_start - 2`) is space-appended to the
first row's address and contributes nothing to the second row; the
continuation loop appends exactly the address-column continuation texts, in
order, to the first-line address. -/
theorem claim_C3_amended (cw : List Word) (s1 s2 : ℤ) (w : Word)
    (hmem : w ∈ cw) (h1 : s1 + 5 ≤ w.top) (h2 : w.top < s2 - 2)
    (hx : 495 ≤ w.x0 ∧ w.x0 < 640) :
    w ∈ continuationWords cw s1 (some s2) ∧
    (' ' :: w.text) ∈ ((continuationWords cw s1 (some s2)).filter
        (fun v => colOf v.x0 = some ColName.address)).map (fun v => ' ' :: v.text) ∧
    (∀ e, w ∉ recordWords cw s2 e) ∧
    (∀ st : ContState, (contFold st (continuationWords cw s1 (some s2))).address =
      st.address ++ (((continuationWords cw s1 (some s2)).filter
        (fun v => colOf v.x0 = some ColName.address)).map (fun v => ' ' :: v.text)).flatten) := by
  have hcol : colOf w.x0 = some ColName.address := colOf_address w.x0 hx.1 hx.2
  have hrec : w ∈ recordWords cw s1 (some s2) := by
    rw [recordWords, List.mem_filter]
    refine ⟨hmem, ?_⟩
    simp only [Bool.and_eq_true, decide_eq_true_eq]
    exact ⟨by linarith, by linarith⟩
  have hcont : w ∈ continuationWords cw s1 (some s2) := by
    rw [continuationWords, List.mem_filter]
    exact ⟨hrec, by simpa using h1⟩
  refine ⟨hcont, ?_, ?_, fun st => contFold_address st _⟩
  · exact List.mem_map_of_mem _ (List.mem_filter.mpr ⟨hcont, by simpa using hcol⟩)
  · intro e hmem2
    rw [recordWords, List.mem_filter] at hmem2
    have := hmem2.2
    simp only [Bool.and_eq_true, decide_eq_true_eq] at this
    linarith [this.1]

theorem claim_C3_amended_witness :
    let wc : Word := ⟨("NE 68508").data, 500, 148⟩
    let cw : List Word := [⟨("1001").data, 10, 140⟩, wc, ⟨("1002").data, 10, 160⟩]
    wc ∈ continuationWords cw 140 (some 160) ∧
    (' ' :: wc.text) ∈ ((continuationWords cw 140 (some 160)).filter
        (fun v => colOf v.x0 = some ColName.address)).map (fun v => ' ' :: v.text) ∧
    (∀ e, wc ∉ recordWords cw 160 e) ∧
    (∀ st : ContState, (contFold st (continuationWords cw 140 (some 160))).address =
      st.address ++ (((continuationWords cw 140 (some 160)).filter
        (fun v => colOf v.x0 = some ColName.address)).map (fun v => ' ' :: v.text)).flatten) :=
  claim_C3_amended _ 140 160 _ (by decide) (by decide) (by decide) (by decide)

theorem claim_C3_counterexample :
    ((138 : ℤ) ≤ 159 ∧ (159 : ℤ) < 160 ∧ ¬ ((159 : ℤ) < 145)) ∧
    (extract_pharmacy_records_page 2
        [⟨("1001").data, 10, 140⟩, ⟨("1002").data, 10, 160⟩,
          ⟨("FOO").data, 500, 159⟩]).map RawRecord.address =
      [("FOO").data, ("FOO").data] := by decide

/-- C9 (amended): `get_column_value` joins the texts of the in-range tokens
in the order they appear in the input token list; this coincides with
ascending-`x0` order exactly when the input list is already sorted by `x0`
(as the PDF reader's reading order provides). -/
theorem claim_C9_amended (words : List Word) (colRange : ℤ × ℤ)
    (h : List.Pairwise (fun v w => v.x0 ≤ w.x0) words) :
    get_column_value words colRange = get_column_value_sorted words colRange := by
  unfold get_column_value get_column_value_sorted sortKey
  rw [List.Sorted.insertionSort_eq]
  exact h.filter _

theorem claim_C9_amended_witness :
    get_column_value [⟨("A").data, 500, 10⟩, ⟨("B").data, 600, 10⟩] (495, 640) =
      get_column_value_sorted [⟨("A").data, 500, 10⟩, ⟨("B").data, 600, 10⟩] (495, 640) :=
  claim_C9_amended _ _ (by decide)

theorem claim_C9_counterexample :
    get_column_value [⟨("B").data, 600, 10⟩, ⟨("A").data, 500, 10⟩] (495, 640) =
        ("B A").data ∧
    get_column_value_sorted [⟨("B").data, 600, 10⟩, ⟨("A").data, 500, 10⟩] (495, 640) =
        ("A B").data ∧
    ("B A").data ≠ ("A B").data := by decide

lemma suffixGo_eq (acc : Option Nat) (i : Nat) (l : List (List Char)) :
    suffixGo acc i l = ((suffixCands i l).getLast?).or acc := by
  induction l generalizing acc i with
  | nil => simp [suffixGo, suffixCands]
  | cons w rest ih =>
    show suffixGo (suffixStep i w rest.head? acc) (i + 1) rest = _
    rw [ih]
    show _ = ((suffixCands i (w :: rest)).getLast?).or acc
    rw [suffixCands]
    rw [List.getLast?_append, List.getLast?_append]
    rw [Option.or_assoc, Option.or_assoc]
    congr 1
    unfold suffixStep
    by_cases h2 : (normWord w ∈ UNIT_KEYWORDS &&
        (match rest.head? with
         | some n => isUnitDesig n
         | none => false)) = true
    · rw [if_pos h2, if_pos h2]
      simp
    · rw [if_neg h2, if_neg h2]
      by_cases h1 : normWord w ∈ STREET_SUFFIXES
      · rw [if_pos h1, if_pos h1]
        simp
      · rw [if_neg h1, if_neg h1]
        simp

/-- C4: the street/city boundary of the default suffix-scan strategy is the
last candidate produced by the left-to-right walk — a vocabulary token at its
own position, a suite/unit/highway-type keyword followed by a
unit-designator-shaped token at the following position — and the worked
example splits as the claim states. -/
theorem claim_C4 :
    (∀ words : List (List Char), streetEndIdx words = (suffixCands 0 words).getLast?) ∧
    parse_address (("123 Main St Suite 200 Springfield IL 62701-1234").data) =
      some ⟨("123 Main St Suite 200").data, ("Springfield").data, ("IL").data,
        ("62701-1234").data⟩ := by
  constructor
  · intro words
    have h := suffixGo_eq none 0 words
    simpa [streetEndIdx] using h
  · decide

lemma altMatch_dropWhile_self (m : List Char) (h : altMatchB m = true) :
    m.dropWhile isWsChar = m := by
  obtain ⟨d, t, hm, hd⟩ := altMatchB_not_ws_head m h
  rw [hm]
  exact dropWhile_cons_false _ _ _ hd

lemma attnFind_complete (a ws m : List Char) (hws : ws ≠ []) (hr : IsWsRun ws)
    (halt : altMatchB m = true) : (attnFind (a ++ ws ++ m)).isSome = true := by
  induction a with
  | nil =>
    obtain ⟨w0, wt, hcons⟩ := List.exists_cons_of_ne_nil hws
    have hshape : ([] : List Char) ++ ws ++ m = w0 :: (wt ++ m) := by
      rw [hcons]; simp
    rw [hshape, attnFind]
    have hcond : (isWsChar w0 && altMatchB ((w0 :: (wt ++ m)).dropWhile isWsChar)) = true := by
      have hw0 : isWsChar w0 = true := hr w0 (by rw [hcons]; simp)
      have hdw : (w0 :: (wt ++ m)).dropWhile isWsChar = m := by
        have hsh2 : w0 :: (wt ++ m) = (w0 :: wt) ++ m := by simp
        rw [hsh2, dropWhile_all_append _ _ _ (fun c hc => hr c (by rw [hcons]; exact hc))]
        exact altMatch_dropWhile_self m halt
      rw [hw0, hdw, halt]
      rfl
    rw [if_pos hcond]
    rfl
  | cons c rest ih =>
    have hshape : (c :: rest) ++ ws ++ m = c :: (rest ++ ws ++ m) := by simp
    rw [hshape, attnFind]
    by_cases hc : (isWsChar c && altMatchB ((c :: (rest ++ ws ++ m)).dropWhile isWsChar)) = true
    · rw [if_pos hc]; rfl
    · rw [if_neg hc]
      cases hrec : attnFind (rest ++ ws ++ m) with
      | none => rw [hrec] at ih; cases ih
      | some p => rfl

lemma attnFind_first (cs u v : List Char) (h : attnFind cs = some (u, v)) :
    ∀ x y, cs = x ++ y →
      (∃ c t, y = c :: t ∧ isWsChar c = true ∧ altMatchB (y.dropWhile isWsChar) = true) →
      u.length ≤ x.length := by
  induction cs generalizing u with
  | nil => simp [attnFind] at h
  | cons c rest ih =>
    rw [attnFind] at h
    by_cases hc : (isWsChar c && altMatchB ((c :: rest).dropWhile isWsChar)) = true
    · rw [if_pos hc] at h
      rw [Option.some.injEq, Prod.mk.injEq] at h
      intro x y _ _
      rw [← h.1]
      exact Nat.zero_le _
    · rw [if_neg hc] at h
      cases hrec : attnFind rest with
      | none => rw [hrec] at h; cases h
      | some p =>
        obtain ⟨u', v'⟩ := p
        rw [hrec, Option.map_some', Option.some.injEq, Prod.mk.injEq] at h
        obtain ⟨hu, hv⟩ := h
        subst hv
        intro x y hxy hcond
        cases x with
        | nil =>
          exfalso
          rw [List.nil_append] at hxy
          obtain ⟨c0, t0, hy, hws0, halt0⟩ := hcond
          subst hxy
          injection hy with h1 h2
          rw [← h1] at hws0
          apply hc
          rw [hws0, halt0]
          rfl
        | cons d x' =>
          have hxy2 : rest = x' ++ y := by
            have h3 := hxy
            simp only [List.cons_append, List.cons.injEq] at h3
            exact h3.2
          have hle := ih u' hrec x' y hxy2 hcond
          rw [← hu]
          simpa using Nat.succ_le_succ hle

lemma markerSplit_of_attnFind (cs u v : List Char) (h : attnFind cs = some (u, v)) :
    MarkerSplit cs u (v.dropWhile isWsChar) := by
  obtain ⟨hsplit, c, t, hv, hws, halt⟩ := attnFind_sound cs u v h
  refine ⟨v.takeWhile isWsChar, ?_, ?_, ?_, halt⟩
  · rw [hsplit, List.append_assoc]
    congr 1
    exact (List.takeWhile_append_dropWhile isWsChar v).symm
  · rw [hv, List.takeWhile_cons_of_pos hws]
    simp
  · exact fun x hx => List.mem_takeWhile_imp hx

/-- C7: when the street+city span contains a whitespace-preceded ATTN / MC
marker (taking the first such marker), `parse_address` returns as street
everything before the marker's whitespace run, and as city the last
capitalized-shaped word of the span, or its last word when none matches. -/
theorem claim_C7 (address pre st zp a m : List Char)
    (hsz : stateZipSearch address = some (pre, st, zp))
    (hm : MarkerSplit (trimWs pre) a m)
    (hfirst : ∀ a' m', MarkerSplit (trimWs pre) a' m' → a.length ≤ a'.length) :
    ∃ r, parse_address address = some r ∧ r.street = trimWs a ∧
      some r.city =
        (match (splitWs (trimWs pre)).reverse.find? isCapWord with
         | some w => some w
         | none => (splitWs (trimWs pre)).getLast?) := by
  have hne : address ≠ [] := by
    intro hcontra
    rw [hcontra] at hsz
    cases hsz
  obtain ⟨ws, hcs, hws, hr, halt⟩ := hm
  have hsome : (attnFind (trimWs pre)).isSome = true := by
    rw [hcs]
    exact attnFind_complete a ws m hws hr halt
  obtain ⟨⟨u, v⟩, hfind⟩ := Option.isSome_iff_exists.mp hsome
  have hulen : u.length = a.length := by
    apply Nat.le_antisymm
    · apply attnFind_first _ _ _ hfind a (ws ++ m) (by rw [hcs]; simp)
      obtain ⟨w0, wt, hcons⟩ := List.exists_cons_of_ne_nil hws
      refine ⟨w0, wt ++ m, by rw [hcons]; simp, hr w0 (by rw [hcons]; simp), ?_⟩
      rw [dropWhile_all_append _ _ _ hr, altMatch_dropWhile_self m halt]
      exact halt
    · exact hfirst u (v.dropWhile isWsChar) (markerSplit_of_attnFind _ _ _ hfind)
  have hsplit : trimWs pre = u ++ v := (attnFind_sound _ _ _ hfind).1
  have hua : u = a := by
    have hcs2 : u ++ v = a ++ (ws ++ m) := by rw [← hsplit, hcs]; simp
    exact (List.append_inj hcs2 hulen).1
  unfold parse_address
  rw [if_neg hne, hsz]
  dsimp only
  rw [hfind]
  dsimp only
  obtain ⟨city, hcity⟩ :=
    lastCapOrLast_isSome (splitWs (trimWs pre)) (attnFind_words_ne_nil _ _ _ hfind)
  rw [hcity]
  refine ⟨_, rfl, by rw [hua], ?_⟩
  rw [← hcity]
  rfl

lemma markerAt_of_split (cs a m : List Char) (h : MarkerSplit cs a m) :
    markerAtB cs a.length = true := by
  obtain ⟨ws, hcs, hws, hr, halt⟩ := h
  obtain ⟨w0, wt, hcons⟩ := List.exists_cons_of_ne_nil hws
  have hdrop : cs.drop a.length = w0 :: (wt ++ m) := by
    rw [hcs, List.append_assoc, List.drop_left, hcons]
    simp
  have hw0 : isWsChar w0 = true := hr w0 (by rw [hcons]; simp)
  have hdw : (w0 :: (wt ++ m)).dropWhile isWsChar = m := by
    have hsh : w0 :: (wt ++ m) = (w0 :: wt) ++ m := by simp
    rw [hsh, dropWhile_all_append _ _ _ (fun c hc => hr c (by rw [hcons]; exact hc)),
      altMatch_dropWhile_self m halt]
  unfold markerAtB
  rw [hdrop]
  dsimp only
  rw [hw0, hdw, halt]
  rfl

theorem claim_C7_witness :
    ∃ r, parse_address (("Acme Corp ATTN Billing Springfield IL 62701").data) = some r ∧
      r.street = trimWs (("Acme Corp").data) ∧
      some r.city =
        (match (splitWs (trimWs (("Acme Corp ATTN Billing Springfield").data))).reverse.find?
            isCapWord with
         | some w => some w
         | none => (splitWs (trimWs (("Acme Corp ATTN Billing Springfield").data))).getLast?) := by
  apply claim_C7 _ (("Acme Corp ATTN Billing Springfield").data) (("IL").data)
    (("62701").data) (("Acme Corp").data) (("ATTN Billing Springfield").data)
  · decide
  · exact ⟨[' '], by decide, by decide, by decide, by decide⟩
  · intro a' m' hM
    have hmark := markerAt_of_split _ _ _ hM
    by_contra hlt
    push_neg at hlt
    have hall : ∀ k, k < 9 →
        markerAtB (trimWs (("Acme Corp ATTN Billing Springfield").data)) k = false := by decide
    have h9 : (("Acme Corp").data).length = 9 := by decide
    rw [h9] at hlt
    have hfalse := hall a'.length hlt
    rw [hmark] at hfalse
    cases hfalse

lemma ciConsume_sound (lit : List Char) :
    ∀ cs u v, ciConsume lit cs = some (u, v) → cs = u ++ v ∧ CiWord u lit := by
  induction lit with
  | nil =>
    intro cs u v h
    rw [ciConsume, Option.some.injEq, Prod.mk.injEq] at h
    exact ⟨by rw [← h.1, ← h.2]; rfl, by rw [← h.1]; exact List.Forall₂.nil⟩
  | cons l ls ih =>
    intro cs u v h
    cases cs with
    | nil => cases h
    | cons c cs' =>
      rw [ciConsume] at h
      by_cases hcl : c.toLower = l
      · rw [if_pos hcl] at h
        cases hrec : ciConsume ls cs' with
        | none => rw [hrec] at h; cases h
        | some p =>
          obtain ⟨u', v'⟩ := p
          rw [hrec, Option.map_some', Option.some.injEq, Prod.mk.injEq] at h
          obtain ⟨hu, hv⟩ := h
          obtain ⟨hsplit, hci⟩ := ih cs' u' v' hrec
          subst hv
          refine ⟨?_, ?_⟩
          · rw [← hu, hsplit]; rfl
          · rw [← hu]
            exact List.Forall₂.cons hcl hci
      · rw [if_neg hcl] at h; cases h

lemma ciConsume_complete (lit u v : List Char) (h : CiWord u lit) :
    ciConsume lit (u ++ v) = some (u, v) := by
  induction h with
  | nil => rfl
  | @cons c l u' lit' hcl htail ih =>
    show ciConsume (l :: lit') (c :: (u' ++ v)) = some (c :: u', v)
    rw [ciConsume, if_pos hcl, ih]
    rfl

lemma not_ws_of_toLower {c x : Char} (h : c.toLower = x) (hx : isWsChar x = false) :
    isWsChar c = false := by
  cases hw : isWsChar c with
  | false => rfl
  | true =>
    exfalso
    rw [ws_toLower_self hw] at h
    subst h
    rw [hw] at hx
    cases hx

lemma ciWord_head_not_ws {u lit : List Char} {x : Char} {lit' : List Char}
    (h : CiWord u lit) (hlit : lit = x :: lit') (hx : isWsChar x = false) :
    ∃ c u', u = c :: u' ∧ isWsChar c = false := by
  subst hlit
  cases h with
  | cons hcl htail =>
    exact ⟨_, _, rfl, not_ws_of_toLower hcl hx⟩

lemma boxCore_complete (acc bx wsB ds wsT t : List Char) (t0 : Char) (t' : List Char)
    (hbx : CiWord bx (("box").data))
    (hwsB : wsB ≠ []) (hrB : IsWsRun wsB)
    (hds : ds ≠ []) (hdr : IsDigitRun ds)
    (hwsT : wsT ≠ []) (hrT : IsWsRun wsT)
    (ht : t = t0 :: t') (hth : isWsChar t0 = false) :
    boxCore (bx ++ (wsB ++ (ds ++ (wsT ++ t)))) acc = some (acc ++ bx ++ wsB ++ ds, t) := by
  obtain ⟨d0, ds', hdcons⟩ := List.exists_cons_of_ne_nil hds
  have hd0 : isDigitChar d0 = true := hdr d0 (by rw [hdcons]; simp)
  unfold boxCore
  rw [ciConsume_complete _ _ _ hbx]
  dsimp only
  have htkB : (wsB ++ (ds ++ (wsT ++ t))).takeWhile isWsChar = wsB := by
    rw [takeWhile_all_append _ _ _ hrB, hdcons, List.cons_append,
      takeWhile_cons_false _ _ _ (digit_not_ws hd0), List.append_nil]
  have hdrB : (wsB ++ (ds ++ (wsT ++ t))).dropWhile isWsChar = ds ++ (wsT ++ t) := by
    rw [dropWhile_all_append _ _ _ hrB, hdcons, List.cons_append,
      dropWhile_cons_false _ _ _ (digit_not_ws hd0), ← List.cons_append, ← hdcons]
  obtain ⟨w0, wt, hwcons⟩ := List.exists_cons_of_ne_nil hwsT
  have hw0 : isWsChar w0 = true := hrT w0 (by rw [hwcons]; simp)
  have htkD : (ds ++ (wsT ++ t)).takeWhile isDigitChar = ds := by
    rw [takeWhile_all_append _ _ _ hdr, hwcons]
    rw [List.cons_append, takeWhile_cons_false _ _ _ (ws_not_digit hw0), List.append_nil]
  have hdrD : (ds ++ (wsT ++ t)).dropWhile isDigitChar = wsT ++ t := by
    rw [dropWhile_all_append _ _ _ hdr, hwcons, List.cons_append,
      dropWhile_cons_false _ _ _ (ws_not_digit hw0)]
  have htkT : (wsT ++ t).takeWhile isWsChar = wsT := by
    rw [takeWhile_all_append _ _ _ hrT, ht,
      takeWhile_cons_false _ _ _ hth, List.append_nil]
  have hdrT : (wsT ++ t).dropWhile isWsChar = t := by
    rw [dropWhile_all_append _ _ _ hrT, ht, dropWhile_cons_false _ _ _ hth]
  simp only [htkB, hdrB, htkD, hdrD, htkT, hdrT]
  rw [if_neg hwsB]
  rw [if_neg hds]
  rw [if_neg hwsT]
  have htne : t ≠ [] := by rw [ht]; intro hcontra; cases hcontra
  rw [if_pos htne]

lemma boxTail_complete (ws0 po bx wsB ds wsT t : List Char) (t0 : Char) (t' : List Char)
    (hws0 : IsWsRun ws0) (hpo : PoShape po) (hbx : CiWord bx (("box").data))
    (hwsB : wsB ≠ []) (hrB : IsWsRun wsB)
    (hds : ds ≠ []) (hdr : IsDigitRun ds)
    (hwsT : wsT ≠ []) (hrT : IsWsRun wsT)
    (ht : t = t0 :: t') (hth : isWsChar t0 = false) :
    boxTail (ws0 ++ ((po ++ bx ++ wsB ++ ds) ++ (wsT ++ t))) =
      some (po ++ bx ++ wsB ++ ds, t) := by
  obtain ⟨b0, bx', hbcons, hb0⟩ := ciWord_head_not_ws hbx rfl (by decide)
  have hb0low : b0.toLower = 'b' := by
    rw [hbcons] at hbx
    cases hbx with
    | cons hcl _ => exact hcl
  unfold boxTail
  rcases hpo with hponil | ⟨p2, wsP, hp2, hwsP, hrP, hpoeq⟩
  · -- no PO prefix
    subst hponil
    have hshape : ws0 ++ (([] ++ bx ++ wsB ++ ds) ++ (wsT ++ t)) =
        ws0 ++ (bx ++ (wsB ++ (ds ++ (wsT ++ t)))) := by simp
    rw [hshape]
    have hdw : (ws0 ++ (bx ++ (wsB ++ (ds ++ (wsT ++ t))))).dropWhile isWsChar =
        bx ++ (wsB ++ (ds ++ (wsT ++ t))) := by
      rw [dropWhile_all_append _ _ _ hws0, hbcons, List.cons_append,
        dropWhile_cons_false _ _ _ hb0]
    have hpofail : ciConsume (("po").data) (bx ++ (wsB ++ (ds ++ (wsT ++ t)))) = none := by
      rw [hbcons, List.cons_append]
      apply ciConsume_cons_ne
      rw [hb0low]
      decide
    simp only [hdw, hpofail]
    rw [boxCore_complete [] bx wsB ds wsT t t0 t' hbx hwsB hrB hds hdr hwsT hrT ht hth]
  · -- PO prefix present
    obtain ⟨pc, p2', hpcons, hpc⟩ := ciWord_head_not_ws hp2 rfl (by decide)
    have hpclow : pc.toLower = 'p' := by
      rw [hpcons] at hp2
      cases hp2 with
      | cons hcl _ => exact hcl
    rw [hpoeq]
    have hshape : ws0 ++ (((p2 ++ wsP) ++ bx ++ wsB ++ ds) ++ (wsT ++ t)) =
        ws0 ++ (p2 ++ (wsP ++ (bx ++ (wsB ++ (ds ++ (wsT ++ t)))))) := by simp
    rw [hshape]
    have hdw : (ws0 ++ (p2 ++ (wsP ++ (bx ++ (wsB ++ (ds ++ (wsT ++ t))))))).dropWhile
        isWsChar = p2 ++ (wsP ++ (bx ++ (wsB ++ (ds ++ (wsT ++ t)))))  := by
      rw [dropWhile_all_append _ _ _ hws0, hpcons, List.cons_append,
        dropWhile_cons_false _ _ _ hpc]
    simp only [hdw, ciConsume_complete _ _ _ hp2]
    have htkP : (wsP ++ (bx ++ (wsB ++ (ds ++ (wsT ++ t))))).takeWhile isWsChar = wsP := by
      rw [takeWhile_all_append _ _ _ hrP, hbcons, List.cons_append,
        takeWhile_cons_false _ _ _ hb0, List.append_nil]
    have hdrP : (wsP ++ (bx ++ (wsB ++ (ds ++ (wsT ++ t))))).dropWhile isWsChar =
        bx ++ (wsB ++ (ds ++ (wsT ++ t))) := by
      rw [dropWhile_all_append _ _ _ hrP, hbcons, List.cons_append,
        dropWhile_cons_false _ _ _ hb0]
    simp only [htkP, hdrP]
    rw [if_neg hwsP,
      boxCore_complete (p2 ++ wsP) bx wsB ds wsT t t0 t' hbx hwsB hrB hds hdr hwsT hrT
        ht hth]

lemma boxCore_sound (cs1 acc g2 g3 : List Char) (h : boxCore cs1 acc = some (g2, g3)) :
    ∃ bx wsB ds wsT t, cs1 = bx ++ wsB ++ ds ++ wsT ++ t ∧
      CiWord bx (("box").data) ∧ wsB ≠ [] ∧ IsWsRun wsB ∧ ds ≠ [] ∧ IsDigitRun ds ∧
      wsT ≠ [] ∧ IsWsRun wsT ∧ t ≠ [] ∧ g2 = acc ++ bx ++ wsB ++ ds := by
  unfold boxCore at h
  cases hci : ciConsume (("box").data) cs1 with
  | none => rw [hci] at h; cases h
  | some p =>
    obtain ⟨bx, r1⟩ := p
    rw [hci] at h
    dsimp only at h
    obtain ⟨hsplit1, hcibx⟩ := ciConsume_sound _ _ _ _ hci
    by_cases hB : r1.takeWhile isWsChar = []
    · rw [if_pos hB] at h; cases h
    · rw [if_neg hB] at h
      by_cases hD : (r1.dropWhile isWsChar).takeWhile isDigitChar = []
      · rw [if_pos hD] at h; cases h
      · rw [if_neg hD] at h
        by_cases hT : ((r1.dropWhile isWsChar).dropWhile isDigitChar).takeWhile isWsChar = []
        · rw [if_pos hT] at h; cases h
        · rw [if_neg hT] at h
          set r2 := r1.dropWhile isWsChar with hr2
          set r3 := r2.dropWhile isDigitChar with hr3
          by_cases hRB : r3.dropWhile isWsChar ≠ []
          · rw [if_pos hRB] at h
            rw [Option.some.injEq, Prod.mk.injEq] at h
            refine ⟨bx, r1.takeWhile isWsChar, r2.takeWhile isDigitChar,
              r3.takeWhile isWsChar, r3.dropWhile isWsChar, ?_, hcibx, hB, ?_, hD, ?_,
              hT, ?_, hRB, ?_⟩
            · rw [hsplit1]
              conv_lhs => rw [← List.takeWhile_append_dropWhile (p := isWsChar) (l := r1)]
              rw [← hr2]
              conv_lhs => rw [← List.takeWhile_append_dropWhile (p := isDigitChar) (l := r2)]
              rw [← hr3]
              conv_lhs => rw [← List.takeWhile_append_dropWhile (p := isWsChar) (l := r3)]
              simp
            · exact fun c hc => List.mem_takeWhile_imp hc
            · exact fun c hc => List.mem_takeWhile_imp hc
            · exact fun c hc => List.mem_takeWhile_imp hc
            · rw [← h.1]
          · rw [if_neg hRB] at h
            push_neg at hRB
            cases hlast : (r3.takeWhile isWsChar).getLast? with
            | none => rw [hlast] at h; cases h
            | some lc =>
              rw [hlast] at h
              dsimp only at h
              by_cases hlen : 2 ≤ (r3.takeWhile isWsChar).length
              · rw [if_pos hlen] at h
                rw [Option.some.injEq, Prod.mk.injEq] at h
                refine ⟨bx, r1.takeWhile isWsChar, r2.takeWhile isDigitChar,
                  (r3.takeWhile isWsChar).dropLast, [lc], ?_, hcibx, hB, ?_, hD, ?_,
                  ?_, ?_, by simp, ?_⟩
                · rw [hsplit1]
                  conv_lhs => rw [← List.takeWhile_append_dropWhile (p := isWsChar)
                    (l := r1)]
                  rw [← hr2]
                  conv_lhs => rw [← List.takeWhile_append_dropWhile (p := isDigitChar)
                    (l := r2)]
                  rw [← hr3]
                  have hr3eq : r3 = r3.takeWhile isWsChar := by
                    conv_lhs => rw [← List.takeWhile_append_dropWhile (p := isWsChar)
                      (l := r3)]
                    rw [hRB, List.append_nil]
                  have hTne : r3.takeWhile isWsChar ≠ [] := hT
                  have hlast2 : (r3.takeWhile isWsChar).getLast hTne = lc := by
                    have := List.getLast?_eq_getLast (r3.takeWhile isWsChar) hTne
                    rw [hlast] at this
                    exact (Option.some.injEq _ _).mp this.symm
                  conv_lhs => rw [hr3eq,
                    ← List.dropLast_append_getLast hTne, hlast2]
                  simp
                · exact fun c hc => List.mem_takeWhile_imp hc
                · exact fun c hc => List.mem_takeWhile_imp hc
                · intro hcontra
                  have := congrArg List.length hcontra
                  rw [List.length_dropLast] at this
                  simp at this
                  omega
                · exact fun c hc =>
                    List.mem_takeWhile_imp ((List.dropLast_sublist _).mem hc)
                · rw [← h.1]
              · rw [if_neg hlen] at h; cases h

lemma boxTail_sound (cs g2 g3 : List Char) (h : boxTail cs = some (g2, g3)) :
    ∃ ws0 po bx wsB ds wsT t,
      cs = ws0 ++ (po ++ bx ++ wsB ++ ds) ++ wsT ++ t ∧
      IsWsRun ws0 ∧ PoShape po ∧ CiWord bx (("box").data) ∧
      wsB ≠ [] ∧ IsWsRun wsB ∧ ds ≠ [] ∧ IsDigitRun ds ∧
      wsT ≠ [] ∧ IsWsRun wsT ∧ t ≠ [] ∧ g2 = po ++ bx ++ wsB ++ ds := by
  have hws0run : IsWsRun (cs.takeWhile isWsChar) := fun c hc => List.mem_takeWhile_imp hc
  have hcssplit : cs = cs.takeWhile isWsChar ++ cs.dropWhile isWsChar :=
    (List.takeWhile_append_dropWhile isWsChar cs).symm
  unfold boxTail at h
  dsimp only at h
  cases hpo : ciConsume (("po").data) (cs.dropWhile isWsChar) with
  | none =>
    rw [hpo] at h
    obtain ⟨bx, wsB, ds, wsT, t, hsplit, hbx, hB, hrB, hD, hdr, hT, hrT, ht, hg2⟩ :=
      boxCore_sound _ _ _ _ h
    refine ⟨cs.takeWhile isWsChar, [], bx, wsB, ds, wsT, t, ?_, hws0run, Or.inl rfl,
      hbx, hB, hrB, hD, hdr, hT, hrT, ht, by rw [hg2]⟩
    conv_lhs => rw [hcssplit, hsplit]
    simp
  | some p =>
    obtain ⟨po2, rp⟩ := p
    rw [hpo] at h
    dsimp only at h
    by_cases hP : rp.takeWhile isWsChar = []
    · rw [if_pos hP] at h
      obtain ⟨bx, wsB, ds, wsT, t, hsplit, hbx, hB, hrB, hD, hdr, hT, hrT, ht, hg2⟩ :=
        boxCore_sound _ _ _ _ h
      refine ⟨cs.takeWhile isWsChar, [], bx, wsB, ds, wsT, t, ?_, hws0run, Or.inl rfl,
        hbx, hB, hrB, hD, hdr, hT, hrT, ht, by rw [hg2]⟩
      conv_lhs => rw [hcssplit, hsplit]
      simp
    · rw [if_neg hP] at h
      cases hcore : boxCore (rp.dropWhile isWsChar) (po2 ++ rp.takeWhile isWsChar) with
      | some res =>
        obtain ⟨res1, res2⟩ := res
        rw [hcore] at h
        dsimp only at h
        rw [Option.some.injEq, Prod.mk.injEq] at h
        obtain ⟨h1, h2⟩ := h
        subst h1
        subst h2
        obtain ⟨bx, wsB, ds, wsT, t, hsplit, hbx, hB, hrB, hD, hdr, hT, hrT, ht, hg2⟩ :=
          boxCore_sound _ _ _ _ hcore
        obtain ⟨hsplitpo, hcipo⟩ := ciConsume_sound _ _ _ _ hpo
        have hrpsplit : rp = rp.takeWhile isWsChar ++ rp.dropWhile isWsChar :=
          (List.takeWhile_append_dropWhile isWsChar rp).symm
        refine ⟨cs.takeWhile isWsChar, po2 ++ rp.takeWhile isWsChar, bx, wsB, ds, wsT, t,
          ?_, hws0run,
          Or.inr ⟨po2, rp.takeWhile isWsChar, hcipo, hP,
            fun c hc => List.mem_takeWhile_imp hc, rfl⟩,
          hbx, hB, hrB, hD, hdr, hT, hrT, ht, ?_⟩
        · conv_lhs => rw [hcssplit, hsplitpo, hrpsplit, hsplit]
          simp
        · rw [hg2]
      | none =>
        rw [hcore] at h
        obtain ⟨bx, wsB, ds, wsT, t, hsplit, hbx, hB, hrB, hD, hdr, hT, hrT, ht, hg2⟩ :=
          boxCore_sound _ _ _ _ h
        refine ⟨cs.takeWhile isWsChar, [], bx, wsB, ds, wsT, t, ?_, hws0run, Or.inl rfl,
          hbx, hB, hrB, hD, hdr, hT, hrT, ht, by rw [hg2]⟩
        conv_lhs => rw [hcssplit, hsplit]
        simp

lemma boxFind_sound_split (cs g1 g2 g3 : List Char) (h : boxFind cs = some (g1, g2, g3)) :
    ∃ v, cs = g1 ++ v ∧ boxTail v = some (g2, g3) := by
  induction cs generalizing g1 with
  | nil =>
    rw [boxFind] at h
    cases htail : boxTail [] with
    | none => rw [htail] at h; cases h
    | some p =>
      obtain ⟨a, b⟩ := p
      rw [htail, Option.map_some', Option.some.injEq, Prod.mk.injEq, Prod.mk.injEq] at h
      obtain ⟨h1, h2, h3⟩ := h
      subst h1; subst h2; subst h3
      exact ⟨[], rfl, htail⟩
  | cons c rest ih =>
    rw [boxFind] at h
    cases htail : boxTail (c :: rest) with
    | some p =>
      obtain ⟨a, b⟩ := p
      rw [htail, Option.some.injEq, Prod.mk.injEq, Prod.mk.injEq] at h
      obtain ⟨h1, h2, h3⟩ := h
      subst h1; subst h2; subst h3
      exact ⟨c :: rest, rfl, htail⟩
    | none =>
      rw [htail] at h
      cases hrec : boxFind rest with
      | none => rw [hrec] at h; cases h
      | some q =>
        obtain ⟨g1', g2', g3'⟩ := q
        rw [hrec, Option.map_some', Option.some.injEq, Prod.mk.injEq, Prod.mk.injEq] at h
        obtain ⟨h1, h2, h3⟩ := h
        subst h1; subst h2; subst h3
        obtain ⟨v, hsplit, htv⟩ := ih g1' hrec
        exact ⟨v, by rw [hsplit]; rfl, htv⟩

lemma boxFind_minimal (cs g1 g2 g3 : List Char) (h : boxFind cs = some (g1, g2, g3)) :
    ∀ x y, cs = x ++ y → (boxTail y).isSome = true → g1.length ≤ x.length := by
  induction cs generalizing g1 with
  | nil =>
    intro x y _ _
    rw [boxFind] at h
    cases htail : boxTail [] with
    | none => rw [htail] at h; cases h
    | some p =>
      obtain ⟨a, b⟩ := p
      rw [htail, Option.map_some', Option.some.injEq, Prod.mk.injEq, Prod.mk.injEq] at h
      rw [← h.1]
      exact Nat.zero_le _
  | cons c rest ih =>
    rw [boxFind] at h
    cases htail : boxTail (c :: rest) with
    | some p =>
      obtain ⟨a, b⟩ := p
      rw [htail, Option.some.injEq, Prod.mk.injEq, Prod.mk.injEq] at h
      intro x y _ _
      rw [← h.1]
      exact Nat.zero_le _
    | none =>
      rw [htail] at h
      cases hrec : boxFind rest with
      | none => rw [hrec] at h; cases h
      | some q =>
        obtain ⟨g1', g2', g3'⟩ := q
        rw [hrec, Option.map_some', Option.some.injEq, Prod.mk.injEq, Prod.mk.injEq] at h
        obtain ⟨h1, h2, h3⟩ := h
        subst h2; subst h3
        intro x y hxy hsome
        cases x with
        | nil =>
          exfalso
          rw [List.nil_append] at hxy
          rw [← hxy] at hsome
          rw [htail] at hsome
          cases hsome
        | cons d x' =>
          have hxy2 : rest = x' ++ y := by
            have h3 := hxy
            simp only [List.cons_append, List.cons.injEq] at h3
            exact h3.2
          have hle := ih g1' hrec x' y hxy2 hsome
          rw [← h1]
          simpa using Nat.succ_le_succ hle

lemma boxFind_isSome (x y : List Char) (h : (boxTail y).isSome = true) :
    (boxFind (x ++ y)).isSome = true := by
  induction x with
  | nil =>
    rw [List.nil_append]
    cases y with
    | nil =>
      rw [boxFind]
      cases htail : boxTail [] with
      | none => rw [htail] at h; cases h
      | some p => rfl
    | cons c r =>
      rw [boxFind]
      cases htail : boxTail (c :: r) with
      | none => rw [htail] at h; cases h
      | some p => rfl
  | cons c x' ih =>
    have hshape : (c :: x') ++ y = c :: (x' ++ y) := by simp
    rw [hshape, boxFind]
    cases htail : boxTail (c :: (x' ++ y)) with
    | some p => rfl
    | none =>
      cases hrec : boxFind (x' ++ y) with
      | none => rw [hrec] at ih; cases ih
      | some q => rfl

lemma no_marker_of_all (cs : List Char)
    (hall : ∀ k, k < cs.length → markerAtB cs k = false) :
    ∀ a m, ¬ MarkerSplit cs a m := by
  intro a m hM
  have hmark := markerAt_of_split _ _ _ hM
  obtain ⟨ws, hcs, hws, _, _⟩ := hM
  have hlen : a.length < cs.length := by
    rw [hcs]
    obtain ⟨w0, wt, hcons⟩ := List.exists_cons_of_ne_nil hws
    rw [hcons]
    simp only [List.length_append, List.length_cons]
    omega
  rw [hall a.length hlen] at hmark
  cases hmark

/-- C8: when the street+city span (with no mail-routing marker) decomposes as
optional leading text, an optionally-`PO`-prefixed `Box` plus digits, and
non-empty trailing text — the decomposition with the shortest leading text —
`parse_address` returns as street the leading text joined to the box
designator (the designator alone when there is no leading text) and as city
the trailing text. -/
theorem claim_C8 (address pre st zp g1 ws0 po bx wsB ds wsT t : List Char) (t0 : Char)
    (t' : List Char)
    (hsz : stateZipSearch address = some (pre, st, zp))
    (hnoattn : ∀ a m, ¬ MarkerSplit (trimWs pre) a m)
    (hcs : trimWs pre = g1 ++ ws0 ++ (po ++ bx ++ wsB ++ ds) ++ wsT ++ t)
    (hws0 : IsWsRun ws0) (hpo : PoShape po) (hbx : CiWord bx (("box").data))
    (hwsB : wsB ≠ []) (hrB : IsWsRun wsB) (hds : ds ≠ []) (hdr : IsDigitRun ds)
    (hwsT : wsT ≠ []) (hrT : IsWsRun wsT) (ht : t = t0 :: t') (hth : isWsChar t0 = false)
    (hmin : ∀ g1', BoxSplitRaw (trimWs pre) g1' → g1.length ≤ g1'.length) :
    ∃ r, parse_address address = some r ∧
      r.street = (if trimWs g1 = [] then po ++ bx ++ wsB ++ ds
                  else trimWs g1 ++ ' ' :: (po ++ bx ++ wsB ++ ds)) ∧
      r.city = trimWs t ∧ r.state = st ∧ r.zip = zp := by
  have hne : address ≠ [] := by
    intro hcontra
    rw [hcontra] at hsz
    cases hsz
  have hattn : attnFind (trimWs pre) = none := by
    cases hat : attnFind (trimWs pre) with
    | none => rfl
    | some p =>
      obtain ⟨u, v⟩ := p
      exact absurd (markerSplit_of_attnFind _ _ _ hat) (hnoattn u (v.dropWhile isWsChar))
  have htail : boxTail (ws0 ++ ((po ++ bx ++ wsB ++ ds) ++ (wsT ++ t))) =
      some (po ++ bx ++ wsB ++ ds, t) :=
    boxTail_complete ws0 po bx wsB ds wsT t t0 t' hws0 hpo hbx hwsB hrB hds hdr hwsT hrT
      ht hth
  have hshape : trimWs pre = g1 ++ (ws0 ++ ((po ++ bx ++ wsB ++ ds) ++ (wsT ++ t))) := by
    rw [hcs]; simp
  have hsome : (boxFind (trimWs pre)).isSome = true := by
    rw [hshape]
    exact boxFind_isSome _ _ (by rw [htail]; rfl)
  obtain ⟨trip, hfind⟩ := Option.isSome_iff_exists.mp hsome
  obtain ⟨g1', g2', g3'⟩ := trip
  obtain ⟨v, hsplitv, htv⟩ := boxFind_sound_split _ _ _ _ hfind
  have le1 : g1'.length ≤ g1.length :=
    boxFind_minimal _ _ _ _ hfind g1 _ hshape (by rw [htail]; rfl)
  have le2 : g1.length ≤ g1'.length := by
    apply hmin g1'
    obtain ⟨ws0', po', bx', wsB', ds', wsT', t2, hv, hr0', hpo', hbx', hB', hrB', hD',
      hdr', hT', hrT', ht2, hg2'⟩ := boxTail_sound _ _ _ htv
    refine ⟨ws0', po', bx', wsB', ds', wsT', t2, ?_, hr0', hpo', hbx', hB', hrB', hD',
      hdr', hT', hrT', ht2⟩
    rw [hsplitv, hv]
    simp
  have hg1 : g1' = g1 := by
    have heq : g1' ++ v = g1 ++ (ws0 ++ ((po ++ bx ++ wsB ++ ds) ++ (wsT ++ t))) :=
      hsplitv.symm.trans hshape
    exact (List.append_inj heq (Nat.le_antisymm le1 le2)).1
  have hv2 : v = ws0 ++ ((po ++ bx ++ wsB ++ ds) ++ (wsT ++ t)) := by
    have heq : g1' ++ v = g1 ++ (ws0 ++ ((po ++ bx ++ wsB ++ ds) ++ (wsT ++ t))) :=
      hsplitv.symm.trans hshape
    exact (List.append_inj heq (Nat.le_antisymm le1 le2)).2
  rw [hv2, htail, Option.some.injEq, Prod.mk.injEq] at htv
  rw [hg1, ← htv.1, ← htv.2] at hfind
  unfold parse_address
  rw [if_neg hne, hsz]
  dsimp only
  rw [hattn]
  dsimp only
  rw [hfind]
  exact ⟨_, rfl, rfl, rfl, rfl, rfl⟩

theorem claim_C8_witness :
    ∃ r, parse_address (("PO Box 500 Springfield IL 62701").data) = some r ∧
      r.street = (if trimWs ([] : List Char) = [] then
          ("PO ").data ++ ("Box").data ++ [' '] ++ ("500").data
        else trimWs ([] : List Char) ++ ' ' ::
          (("PO ").data ++ ("Box").data ++ [' '] ++ ("500").data)) ∧
      r.city = trimWs (("Springfield").data) ∧ r.state = ("IL").data ∧
      r.zip = ("62701").data := by
  apply claim_C8 _ (("PO Box 500 Springfield").data) (("IL").data) (("62701").data)
    [] [] (("PO ").data) (("Box").data) [' '] (("500").data) [' ']
    (("Springfield").data) 'S' (("pringfield").data)
  · decide
  · exact no_marker_of_all _ (by decide)
  · decide
  · decide
  · exact Or.inr ⟨("PO").data, [' '],
      List.Forall₂.cons (by decide) (List.Forall₂.cons (by decide) List.Forall₂.nil),
      by decide, by decide, by decide⟩
  · exact List.Forall₂.cons (by decide)
      (List.Forall₂.cons (by decide) (List.Forall₂.cons (by decide) List.Forall₂.nil))
  · decide
  · decide
  · decide
  · decide
  · decide
  · decide
  · decide
  · decide
  · intro g1' _
    exact Nat.zero_le _
